import Mathlib

/-!
Verification development for the `tmx` repository (src/tmx.js), a model
of a TMX 1.4 translation-memory document.

The development shallowly embeds the JavaScript source.  The external
collaborators (the `xml-js` XML codec, the `ilib-tools-common`
`TranslationUnit` / `TranslationVariant` classes, the `cldr-segmentation`
sentence splitter, the file system and the logger) are not part of the
repository; where their behaviour matters it is modelled from the spec and
marked as such in the doc comments.

The wire format is modelled at the level of the compact element tree that
`xml-js` produces and consumes (`js2xml` / `xml2js` are treated as mutually
inverse on these trees, which is the spec's contract for the XML codec).
Attribute values are `Option String` (`none` models a JavaScript
`undefined` value); JavaScript truthiness of a string is `some s` with
`s ≠ ""`.

JavaScript object aliasing: the source mutates `TranslationUnit` objects
that are shared between `this.tu` and `this.tuhash`.  In the pure model a
mutation of the unit stored under a key is rendered by rewriting, in both
containers, every entry carrying that key (`TMX.updateUnit`), which agrees
with the aliased mutation whenever the two containers are consistent.  A
separate explicit-store model (`Tmx.Heap`) is used for the claims about
mutation of *input* documents, where aliasing is observable.
-/

namespace Tmx

/-- Association-list lookup, mirroring a JavaScript object property read:
the value of the first entry with the given key, if any. -/
def assocLookup {α β : Type} [DecidableEq α] (l : List (α × β)) (k : α) : Option β :=
  (l.find? (fun p => p.1 = k)).map (fun p => p.2)

/-- Association-list update, mirroring a JavaScript object property write:
replace the value at an existing key in place, otherwise append the new
entry (JavaScript objects keep insertion order). -/
def setAssoc {α β : Type} [DecidableEq α] (l : List (α × β)) (k : α) (v : β) : List (α × β) :=
  if (assocLookup l k).isSome then
    l.map (fun p => if p.1 = k then (k, v) else p)
  else
    l ++ [(k, v)]

/-- JavaScript truthiness for an optional string: defined and non-empty. -/
def truthy (s : Option String) : Option String :=
  match s with
  | some s => if s = "" then none else some s
  | none => none

/-- `a || b` on optional strings with JavaScript string truthiness. -/
def orTruthy (a b : Option String) : Option String :=
  match truthy a with
  | some s => some s
  | none => b

/-- A translation variant: one locale-tagged rendering of a unit.
Modelled from the spec: `TranslationVariant` of `ilib-tools-common`
(external collaborator) holds a `locale` and a `string`; the `string` may
be a JavaScript `undefined` (modelled as `none`). -/
structure TranslationVariant where
  locale : String
  string : Option String
deriving DecidableEq, Repr

/-- The identity key of a variant.  Modelled from the spec: a
deterministic function of `(locale, string)`, opaque, stable and
equality-comparable; modelled as the pair itself. -/
def TranslationVariant.hashKey (v : TranslationVariant) : String × Option String :=
  (v.locale, v.string)

/-- A translation unit: a source string plus its variants and metadata.
Modelled from the spec: `TranslationUnit` of `ilib-tools-common`
(external collaborator).  Fields the source never sets remain `none`. -/
structure TranslationUnit where
  sourceLocale : String := "en"
  source : Option String := none
  target : Option String := none
  targetLocale : Option String := none
  datatype : Option String := none
  comment : Option String := none
  pre : Option String := none
  post : Option String := none
  properties : List (String × Option String) := []
  variants : List TranslationVariant := []
deriving DecidableEq, Repr

/-- The identity key type of a translation unit. -/
abbrev UnitKey := String × Option String × Option String

/-- The identity key of a unit.  Modelled from the spec: a deterministic
function of `sourceLocale`, `source` and `datatype`, opaque, stable and
equality-comparable; modelled as the triple itself. -/
def TranslationUnit.hashKey (u : TranslationUnit) : UnitKey :=
  (u.sourceLocale, u.source, u.datatype)

/-- Modelled from the spec: `TranslationUnit.addVariant` of
`ilib-tools-common` appends the variant unless a variant with the same
identity key is already present (no replacement of existing variants). -/
def TranslationUnit.addVariant (u : TranslationUnit) (v : TranslationVariant) : TranslationUnit :=
  if u.variants.any (fun w => w.hashKey = v.hashKey) then u
  else { u with variants := u.variants ++ [v] }

/-- Modelled from the spec: `TranslationUnit.addVariants` adds each of the
given variants in order through `addVariant`. -/
def TranslationUnit.addVariants (u : TranslationUnit) (vs : List TranslationVariant) : TranslationUnit :=
  vs.foldl TranslationUnit.addVariant u

/-- Modelled from the spec: `TranslationUnit.getVariants` returns the
unit's ordered variants. -/
def TranslationUnit.getVariants (u : TranslationUnit) : List TranslationVariant :=
  u.variants

/-- Modelled from the spec: `TranslationUnit.addProperties` merges the
given mapping into the unit's properties. -/
def TranslationUnit.addProperties (u : TranslationUnit)
    (ps : List (String × Option String)) : TranslationUnit :=
  { u with properties := ps.foldl (fun acc p => setAssoc acc p.1 p.2) u.properties }

/-- The list of variant identity keys of a unit. -/
def TranslationUnit.variantKeys (u : TranslationUnit) : List (String × Option String) :=
  u.variants.map TranslationVariant.hashKey

/-- The fixed header attribute names (`headerAttrs` in tmx.js). -/
def headerAttrs : List String :=
  ["segtype", "creationtool", "creationtoolversion", "adminlang", "srclang", "datatype"]

/-- Log events emitted by the model.  Message text is immaterial; only the
level and the site matter to the spec.  The `trace`-level logging of the
source is omitted (it carries no observable contract). -/
inductive LogEvent where
  /-- `logger.error` in `deserialize` on a version other than "1.4". -/
  | errorUnknownVersion : LogEvent
  /-- `logger.warn` in `parse` on a `prop` element without attributes. -/
  | warnPropNoType : LogEvent
  /-- `logger.warn` in `parse` on a `tuv` element without attributes. -/
  | warnVariantNoLang : LogEvent
deriving DecidableEq, Repr

/- ===== The compact wire tree (the `xml-js` compact representation). ===== -/

/-- Attribute collection of an element: ordered key/value pairs; a `none`
value models a JavaScript `undefined` attribute value. -/
abbrev Attrs := List (String × Option String)

/-- Look an attribute up in an optional attribute collection,
flattening an undefined value to absence. -/
def attrValue (attrs : Option Attrs) (k : String) : Option String :=
  match attrs with
  | some l => (assocLookup l k).join
  | none => none

/-- A `prop` element: a `type` attribute and text content. -/
structure PropTree where
  attrs : Option Attrs := none
  text : Option String := none
deriving DecidableEq, Repr

/-- A `note` element. -/
structure NoteTree where
  text : Option String := none
deriving DecidableEq, Repr

/-- A `seg` element. -/
structure SegTree where
  text : Option String := none
deriving DecidableEq, Repr

/-- A `tuv` element: language attributes, one `seg` child, optional
`prop` children. -/
structure TuvTree where
  attrs : Option Attrs := none
  seg : Option SegTree := none
  prop : Option (List PropTree) := none
deriving DecidableEq, Repr

/-- A `tu` element.  The `xml-js` single-element collapse (one child
parses back as an object, several as an array) is absorbed by the
`makeArray` normalization of `parse`, so children are stored as lists. -/
structure TuTree where
  attrs : Option Attrs := none
  prop : Option (List PropTree) := none
  note : Option NoteTree := none
  tuv : Option (List TuvTree) := none
deriving DecidableEq, Repr

/-- The `header` element.  `parse` reads only its attributes. -/
structure HeaderTree where
  attrs : Option Attrs := none
  prop : Option (List PropTree) := none
deriving DecidableEq, Repr

/-- The `body` element. -/
structure BodyTree where
  tu : Option (List TuTree) := none
deriving DecidableEq, Repr

/-- The `tmx` root element. -/
structure TmxTree where
  attrs : Option Attrs := none
  header : Option HeaderTree := none
  body : Option BodyTree := none
deriving DecidableEq, Repr

/-- A parsed wire document: the result of `xml2js` on the wire text.
`tmx = none` models text with no `tmx` root element. -/
structure WireDoc where
  tmx : Option TmxTree := none
deriving DecidableEq, Repr

/- ===== The TMX document. ===== -/

/-- Modelled from the spec: `getVersion()` reads the implementation's
own version string from its package metadata (external file system
collaborator); modelled as a fixed string. -/
def packageVersion : String := "1.0.0"

/-- `("" + num).split(".")` of JavaScript on the canonical decimal
string, as a structural split of the character list at `'.'`. -/
def splitDot (cs : List Char) : List (List Char) :=
  match cs with
  | [] => [[]]
  | c :: rest =>
    if c = '.' then [] :: splitDot rest
    else match splitDot rest with
      | [] => [[c]]
      | p :: ps => (c :: p) :: ps

/-- `versionString(num)` of tmx.js: format a version number as
`<integer>.<fraction-or-0>` (`parts[1] || "0"` treats a missing or empty
fraction as `"0"`).  The JavaScript number is modelled by its canonical
decimal string. -/
def versionString (num : String) : String :=
  let parts := (splitDot num.data).map String.mk
  let integral := parts.headD ""
  let fraction := match parts.get? 1 with
    | some s => if s = "" then "0" else s
    | none => "0"
  integral ++ "." ++ fraction

/-- The TMX document aggregate (`class TMX` of tmx.js).  `version` holds
the canonical decimal string of the JavaScript number `this.version`.
The file `path` and the load-on-construction behaviour (file system
collaborators) are outside the model. -/
structure TMX where
  version : String := "1.4"
  sourceLocale : String := "en"
  adminLocale : String := "en"
  properties : List (String × String) := [("datatype", "unknown"), ("segtype", "paragraph")]
  tu : List TranslationUnit := []
  tuhash : List (UnitKey × TranslationUnit) := []
deriving DecidableEq, Repr

/-- The constructor options that `diff` and `merge` pass to `new TMX(...)`.
(The other option fields — `path`, `properties`, and the remaining header
attributes — are never passed by the code under verification.) -/
structure TmxOptions where
  sourceLocale : Option String := none
  version : Option String := none
  segmentation : Option String := none
  creationtool : Option String := none
  creationtoolversion : Option String := none
deriving DecidableEq, Repr

/-- Modelled after `Number.parseFloat` followed by later stringification:
on the canonical decimal strings that model JavaScript numbers this is the
identity. -/
def parseFloatModel (s : String) : String := s

/-- The `TMX` constructor on an options object (tmx.js constructor).
Mirrors the source's order: defaults, then `properties`/`sourceLocale`/
`version`/`segmentation`, then the `headerAttrs` loop (of which only
`creationtool` and `creationtoolversion` can be present here).  Note that
`adminLocale` is fixed to the *default* source locale before the options
are read, so it is always `"en"` after construction. -/
def TMX.init (o : TmxOptions) : TMX :=
  let d : TMX := {}
  let d := match truthy o.sourceLocale with
    | some s => { d with sourceLocale := s }
    | none => d
  let d := match o.version with
    | some v => { d with version := parseFloatModel v }
    | none => d
  let d := match o.segmentation with
    | some s =>
      if s = "paragraph" ∨ s = "sentence" then
        { d with properties := setAssoc d.properties "segtype" s }
      else d
    | none => d
  let d := match truthy o.creationtool with
    | some s => { d with properties := setAssoc d.properties "creationtool" s }
    | none => d
  let d := match truthy o.creationtoolversion with
    | some s => { d with properties := setAssoc d.properties "creationtoolversion" s }
    | none => d
  d

/-- `size()`: the number of translation units. -/
def TMX.size (d : TMX) : Nat := d.tu.length

/-- Rewrite the unit stored under a key, in both `tu` and `tuhash`.
This renders the JavaScript in-place mutation of a unit object shared
between the two containers. -/
def TMX.updateUnit (d : TMX) (k : UnitKey) (newu : TranslationUnit) : TMX :=
  { d with
    tu := d.tu.map (fun t => if t.hashKey = k then newu else t),
    tuhash := d.tuhash.map (fun p => if p.1 = k then (k, newu) else p) }

/-- `addTranslationUnit(unit)`: if a unit with the same hash key exists,
merge the incoming variants into it, else append it to `tu` and index it
in `tuhash`. -/
def TMX.addTranslationUnit (d : TMX) (unit : TranslationUnit) : TMX :=
  let hashKey := unit.hashKey
  match assocLookup d.tuhash hashKey with
  | some existing =>
    d.updateUnit hashKey (existing.addVariants unit.getVariants)
  | none =>
    { d with tu := d.tu ++ [unit], tuhash := d.tuhash ++ [(hashKey, unit)] }

/-- `addTranslationUnits(units)`. -/
def TMX.addTranslationUnits (d : TMX) (units : List TranslationUnit) : TMX :=
  units.foldl TMX.addTranslationUnit d

/- ===== Segmentation. ===== -/

/-- Modelled from the spec: the external `cldr-segmentation`
`sentenceSplit` collaborator splits a string at sentence boundaries
honouring a per-language suppression set; the exact boundary rules are
the collaborator's own.  Modelled as splitting after each full stop
followed by a space; the suppression-set argument is immaterial to every
claim and is omitted. -/
def sentenceSplit (s : String) : List String := s.splitOn ". "

/-- `segmentString(string, locale)`: empty input gives no segments;
paragraph mode is the identity; sentence mode splits and trims each
non-empty piece (an empty piece is passed through untrimmed, as in the
source).  The locale argument only selects the suppression set of the
external splitter and is dropped with it. -/
def TMX.segmentString (d : TMX) (s : String) : List String :=
  if s = "" then []
  else if assocLookup d.properties "segtype" = some "paragraph" then [s]
  else (sentenceSplit s).map (fun str => if str = "" then str else str.trim)

/- ===== Serialization. ===== -/

/-- `serializeTranslationVariant(tv)`. -/
def serializeTranslationVariant (tv : TranslationVariant) : TuvTree :=
  { attrs := some [("xml:lang", some tv.locale)],
    seg := some { text := tv.string },
    prop := none }

/-- The `tu` element built by `serializeTranslationUnit` for a unit that
is actually emitted: the `srclang` attribute, one `prop` child per unit
property, and one `tuv` child per variant. -/
def serializeTranslationUnitBody (tu : TranslationUnit) : TuTree :=
  { attrs := some [("srclang", some tu.sourceLocale)],
    prop := if tu.properties = [] then none
      else some (tu.properties.map (fun p =>
        { attrs := some [("type", some p.1)], text := p.2 })),
    note := none,
    tuv := some (tu.variants.map serializeTranslationVariant) }

/-- `serializeTranslationUnit(tu)`: drop the unit entirely when it has
fewer than two variants; otherwise emit its element. -/
def serializeTranslationUnit (tu : TranslationUnit) : Option TuTree :=
  if tu.variants.length < 2 then none
  else some (serializeTranslationUnitBody tu)

/-- `serialize()`, up to the wire tree (the final `js2xml` text rendering
is the external XML codec).  The unit list is first filtered to units
with more than one variant and then serialized, so the `undefined` result
of `serializeTranslationUnit` on a small unit never reaches the output;
`filterMap` renders the same list. -/
def TMX.serialize (d : TMX) : WireDoc :=
  let hAttrs : Attrs :=
    [("segtype", assocLookup d.properties "segtype"),
     ("creationtool", some ((truthy (assocLookup d.properties "creationtool")).getD "loctool")),
     ("creationtoolversion",
       some ((truthy (assocLookup d.properties "creationtoolversion")).getD packageVersion)),
     ("adminlang", some d.adminLocale),
     ("srclang", some d.sourceLocale),
     ("datatype", assocLookup d.properties "datatype")]
  let hAttrs := match truthy (assocLookup d.properties "originalFormat") with
    | some s => hAttrs ++ [("o-tmf", some s)]
    | none => hAttrs
  let customProps := d.properties.filter (fun p => ¬ p.1 ∈ headerAttrs)
  let header : HeaderTree :=
    { attrs := some hAttrs,
      prop := if customProps = [] then none
        else some (customProps.map (fun p =>
          { attrs := some [("type", some p.1)], text := some p.2 })) }
  let body : BodyTree :=
    { tu := some ((d.tu.filter (fun u => u.variants.length > 1)).filterMap
        serializeTranslationUnit) }
  let root : TmxTree :=
    { attrs := some [("version", some (versionString d.version))],
      header := some header,
      body := some body }
  { tmx := some root }

/- ===== Parsing. ===== -/

/-- Modelled from the spec: the nested `pre`/`post` markup is re-parsed
by the external XML codec and the extracted `seg` text is left-trimmed
(`parsedPre.seg._text.trimStart()`); the inner codec is modelled as
returning the given text. -/
def reparsedSegText (s : String) : String :=
  s.dropWhile (fun c => c.isWhitespace)

/-- One step of the `tuv` loop of `parse`: extract the locale (from a
`lang` then an `xml:lang` attribute; a `tuv` with no attributes at all is
warned about), the `seg` text, and the `x-context-pre`/`x-context-post`
props; add the variant when both locale and string are truthy; the
source-locale variant overwrites the unit's `source`/`sourceLocale`.
(The source reads `prop._attributes.type` without a guard and would throw
on a `prop` without attributes; the model reads it as absent.) -/
def parseVariant (acc : TranslationUnit × List LogEvent) (variant : TuvTree) :
    TranslationUnit × List LogEvent :=
  let tu := acc.1
  let log := acc.2
  let locale : Option String := match variant.attrs with
    | some attrs =>
      match truthy (assocLookup attrs "lang").join with
      | some s => some s
      | none => truthy (assocLookup attrs "xml:lang").join
    | none => none
  let log := match variant.attrs with
    | some _ => log
    | none => log ++ [LogEvent.warnVariantNoLang]
  let string : Option String := variant.seg.bind (fun s => s.text)
  let prepost : Option String × Option String := match variant.prop with
    | some props => props.foldl (fun pp p =>
        if attrValue p.attrs "type" = some "x-context-post" then (pp.1, p.text)
        else if attrValue p.attrs "type" = some "x-context-pre" then (p.text, pp.2)
        else pp) (none, none)
    | none => (none, none)
  let tu := match locale, truthy string with
    | some loc, some str =>
      let v : TranslationVariant := { locale := loc, string := some str }
      let tu := tu.addVariant v
      if v.locale = tu.sourceLocale then
        { tu with source := v.string, sourceLocale := v.locale }
      else tu
    | _, _ => tu
  let tu := match truthy prepost.1 with
    | some preStr => { tu with pre := some (reparsedSegText preStr) }
    | none => tu
  let tu := match truthy prepost.2 with
    | some postStr => { tu with post := some (reparsedSegText postStr) }
    | none => tu
  (tu, log)

/-- The per-`tu` body of the loop of `parse`: build one translation unit
from a `tu` element.  A `prop` element whose attributes carry no `type`
stores the value under the key `"undefined"` (JavaScript stringifies the
undefined property name). -/
def parseUnit (d : TMX) (unit : TuTree) : TranslationUnit × List LogEvent :=
  let srcLoc : String :=
    ((orTruthy (attrValue unit.attrs "srclang")
      (orTruthy (some d.sourceLocale) (some d.adminLocale))).getD "en")
  let tu : TranslationUnit :=
    { sourceLocale := srcLoc, datatype := assocLookup d.properties "datatype" }
  let propsLog : List (String × Option String) × List LogEvent :=
    match unit.prop with
    | some propList => propList.foldl (fun acc p =>
        match p.attrs with
        | some attrs =>
          (setAssoc acc.1 (((assocLookup attrs "type").join).getD "undefined") p.text, acc.2)
        | none => (acc.1, acc.2 ++ [LogEvent.warnPropNoType])) ([], [])
    | none => ([], [])
  let tu := match unit.prop with
    | some _ => tu.addProperties propsLog.1
    | none => tu
  let tu := match unit.note with
    | some n => { tu with comment := n.text }
    | none => tu
  match unit.tuv with
  | some variants => variants.foldl parseVariant (tu, propsLog.2)
  | none => (tu, propsLog.2)

/-- The header phase of `parse`: each truthy fixed header attribute is
copied into `properties`, and `srclang`/`adminlang` additionally set the
document locales. -/
def parseHeader (d : TMX) (t : TmxTree) : TMX :=
  match t.header with
  | some h =>
    match h.attrs with
    | some attrs =>
      let d := headerAttrs.foldl (fun acc a =>
        match truthy (assocLookup attrs a).join with
        | some v => { acc with properties := setAssoc acc.properties a v }
        | none => acc) d
      let d := match truthy (assocLookup attrs "srclang").join with
        | some s => { d with sourceLocale := s }
        | none => d
      match truthy (assocLookup attrs "adminlang").join with
      | some s => { d with adminLocale := s }
      | none => d
    | none => d
  | none => d

/-- `parse(tmx)`: read the header attributes into `properties`,
`sourceLocale` and `adminLocale`, then turn each `tu` element of the body
into a unit and route it through `addTranslationUnit`. -/
def TMX.parse (d : TMX) (t : TmxTree) : TMX × List LogEvent :=
  let d := parseHeader d t
  match t.body with
  | some b =>
    match b.tu with
    | some units =>
      units.foldl (fun acc ut =>
        let p := parseUnit acc.1 ut
        (acc.1.addTranslationUnit p.1, acc.2 ++ p.2)) (d, [])
    | none => (d, [])
  | none => (d, [])

/-- `deserialize(xml)`, from the parsed wire tree: without a `tmx` root
the document is returned untouched; with a root whose `version` attribute
is not the exact string "1.4" the error branch is taken (the source tests
`!_attributes || !_attributes.version || version !== "1.4"`, which is
exactly the failure of the attribute lookup to yield `"1.4"`); otherwise
the old units and index are cleared and the tree is parsed.  Inside the
error branch the `logger.error` argument evaluates
`json.tmx._attributes.version` unguarded: when the root carries an
`_attributes` object this logs and returns `undefined`, but when it does
not, reading `.version` of `undefined` throws a `TypeError` — nothing is
logged and the call does not return (state is untouched only because the
throw precedes the clear).  The second component is the JavaScript
return value (`none` models the `undefined` of the error return); the
final `Bool` is `true` exactly on the thrown `TypeError`. -/
def TMX.deserialize (d : TMX) (w : WireDoc) :
    TMX × Option (List TranslationUnit) × List LogEvent × Bool :=
  match w.tmx with
  | some t =>
    if attrValue t.attrs "version" = some "1.4" then
      let d1 := { d with tu := [], tuhash := [] }
      let p := d1.parse t
      (p.1, some p.1.tu, p.2, false)
    else
      match t.attrs with
      | some _ => (d, none, [LogEvent.errorUnknownVersion], false)
      | none => (d, none, [], true)
  | none => (d, some d.tu, [], false)

/- ===== Diff. ===== -/

/-- The options object literal that both `diff` and `merge` pass to
`new TMX(...)`: the receiver's locale, version, segmentation and
creation-tool settings. -/
def mergeDiffOptions (d : TMX) : TmxOptions :=
  { sourceLocale := some d.sourceLocale,
    version := some d.version,
    segmentation := assocLookup d.properties "segtype",
    creationtool := assocLookup d.properties "creationtool",
    creationtoolversion := assocLookup d.properties "creationtoolversion" }

/-- `variantDiff(tu1, tu2)`: every variant of `tu2` whose hash key does
not appear among `tu1`'s variant hash keys (additions and changes only,
never deletions). -/
def TMX.variantDiff (tu1 tu2 : TranslationUnit) : List TranslationVariant :=
  let variantHash1 := tu1.getVariants.map TranslationVariant.hashKey
  tu2.getVariants.filter (fun v => ¬ v.hashKey ∈ variantHash1)

/-- The fresh unit that `diff` builds for a unit present in both
documents with a non-empty variant diff: `other`'s source/target fields,
the mandatory source variant, then the diffed variants. -/
def diffUnit (tu : TranslationUnit) (variantdiff : List TranslationVariant) :
    TranslationUnit :=
  let newTu : TranslationUnit :=
    { sourceLocale := tu.sourceLocale, source := tu.source,
      target := tu.target, targetLocale := tu.targetLocale,
      datatype := tu.datatype }
  let newTu := newTu.addVariant { locale := tu.sourceLocale, string := tu.source }
  newTu.addVariants variantdiff

/-- `diff(other)`: a new document (same locale/version/segmentation/
creationtool settings) holding every unit of `other` that is absent from
`this`, plus a fresh `diffUnit` for every unit present in both whose
variant diff is non-empty. -/
def TMX.diff (d other : TMX) : TMX :=
  let difftmx := TMX.init (mergeDiffOptions d)
  other.tu.foldl (fun acc tu =>
    match assocLookup d.tuhash tu.hashKey with
    | some thistu =>
      let variantdiff := TMX.variantDiff thistu tu
      if variantdiff.isEmpty then acc
      else acc.addTranslationUnit (diffUnit tu variantdiff)
    | none => acc.addTranslationUnit tu) difftmx

/-- The per-unit effect of `diff`'s loop on a fresh output document:
`none` when the unit is present in `this` with an empty variant diff,
otherwise the unit that is added to the output. -/
def diffStep (d : TMX) (tu : TranslationUnit) : Option TranslationUnit :=
  match assocLookup d.tuhash tu.hashKey with
  | some thistu =>
    let variantdiff := TMX.variantDiff thistu tu
    if variantdiff.isEmpty then none else some (diffUnit tu variantdiff)
  | none => some tu

/- ===== Merge. ===== -/

/-- `mergeVariants(left, right)`: append to `left` every variant of
`right` whose key is not already on `left` (existing variants are never
overwritten). -/
def TMX.mergeVariants (left right : TranslationUnit) : TranslationUnit :=
  let leftVariantHash := left.getVariants.map TranslationVariant.hashKey
  left.addVariants (right.getVariants.filter (fun v => ¬ v.hashKey ∈ leftVariantHash))

/-- `merge(tmxs)`: `this` unchanged when there is nothing to merge;
otherwise a fresh document seeded with `this`'s units, into which each
unit of each of the others is merged by key (variants into the existing
unit of equal key, else inserted fresh). -/
def TMX.merge (d : TMX) (tmxs : List TMX) : TMX :=
  if tmxs.isEmpty then d
  else
    let mergetmx := TMX.init (mergeDiffOptions d)
    let mergetmx := mergetmx.addTranslationUnits d.tu
    tmxs.foldl (fun acc tmx =>
      tmx.tu.foldl (fun acc2 tu =>
        match assocLookup acc2.tuhash tu.hashKey with
        | some mergeTu => acc2.updateUnit tu.hashKey (TMX.mergeVariants mergeTu tu)
        | none => acc2.addTranslationUnit tu) acc) mergetmx

/- ===== Resource ingestion. ===== -/

/-- The shape-dependent payload of a resource (`res.getType()` dispatch;
the spec models the dynamic shape as a closed sum).  The `default` case
of the source's `switch` coincides with the `string` case. -/
inductive ResourcePayload where
  | str (source : Option String) (target : Option String) : ResourcePayload
  | arr (sourceArray : List String) (target : Option (List String)) : ResourcePayload
  | plural (source : List (String × String))
      (target : Option (List (String × String))) : ResourcePayload
deriving DecidableEq, Repr

/-- Modelled from the spec: the external `Resource` collaborator exposes
source/target locales, type-shaped payloads and metadata through
getters.  Plural payloads are ordered category→string mappings. -/
structure Resource where
  sourceLocale : String
  targetLocale : Option String := none
  datatype : Option String := none
  context : Option String := none
  flavor : Option String := none
  project : Option String := none
  payload : ResourcePayload
deriving DecidableEq, Repr

/-- The `x-context`/`x-flavor`/`x-project` properties attached to every
unit built from a resource. -/
def resourceProps (res : Resource) : List (String × Option String) :=
  [("x-context", res.context), ("x-flavor", res.flavor), ("x-project", res.project)]

/-- The `string` branch of `addResource`: one unit per source segment,
with a source variant, a target variant when a truthy target segment
exists at the same index, and the resource properties. -/
def addResourceString (d : TMX) (res : Resource) (addTarget : Bool)
    (source target : Option String) : TMX :=
  let translationSegments : List String :=
    if addTarget then d.segmentString (target.getD "") else []
  let sourceSegments := d.segmentString (source.getD "")
  (sourceSegments.enum).foldl (fun acc seg =>
    let i := seg.1
    let segment := seg.2
    let tu : TranslationUnit :=
      { sourceLocale := res.sourceLocale, source := some segment,
        datatype := res.datatype }
    let tu := tu.addVariant { locale := res.sourceLocale, string := some segment }
    let tu :=
      if addTarget ∧ (truthy target).isSome then
        match truthy (translationSegments.get? i).join with
        | some t => tu.addVariant { locale := res.targetLocale.getD "", string := some t }
        | none => tu
      else tu
    let tu := tu.addProperties (resourceProps res)
    acc.addTranslationUnit tu) d

/-- The `array` branch of `addResource`: two-dimensional segmentation; a
target variant is attached only when both the outer and the inner index
exist on the target side. -/
def addResourceArray (d : TMX) (res : Resource) (addTarget : Bool)
    (sourceArray : List String) (target : Option (List String)) : TMX :=
  let srcArr := sourceArray.map (fun e => d.segmentString e)
  let tarArr : Option (List (List String)) :=
    if addTarget then target.map (fun l => l.map (fun e => d.segmentString e))
    else none
  (srcArr.enum).foldl (fun acc el =>
    let i := el.1
    (el.2.enum).foldl (fun acc2 sj =>
      let j := sj.1
      let string := sj.2
      let tu : TranslationUnit :=
        { sourceLocale := res.sourceLocale, source := some string,
          datatype := res.datatype }
      let tu := tu.addVariant { locale := res.sourceLocale, string := some string }
      let tu :=
        match tarArr with
        | some arr =>
          match arr.get? i with
          | some inner =>
            if j < inner.length then
              tu.addVariant { locale := res.targetLocale.getD "", string := inner.get? j }
            else tu
          | none => tu
        | none => tu
      let tu := tu.addProperties (resourceProps res)
      acc2.addTranslationUnit tu) acc) d

/-- The unit the `plural` branch builds for one source segment of one
category. -/
def pluralUnit (res : Resource) (addTarget : Bool)
    (tarPlurals : Option (List (String × List String)))
    (category : String) (i : Nat) (string : String) : TranslationUnit :=
  let tu : TranslationUnit :=
    { sourceLocale := res.sourceLocale, source := some string,
      datatype := res.datatype }
  let tu := tu.addVariant { locale := res.sourceLocale, string := some string }
  let tu :=
    match tarPlurals with
    | some tps =>
      if addTarget then
        match assocLookup tps category with
        | some tsegs =>
          tu.addVariant { locale := res.targetLocale.getD "", string := tsegs.get? i }
        | none => tu
      else tu
    | none => tu
  tu.addProperties (resourceProps res)

/-- One step of the main loop of the `plural` branch: build the unit for
one segment of one source category, record in the `other` accumulator —
for the `other` category only — whether `addTranslationUnit` will store
this very object (`some` of its key) or merge it away (`none`), then add
it.  This mirrors the source's `other.push(tu)` of the unit *object*:
a later in-place `addVariant` on a pushed object is visible in the
document exactly when the object was freshly stored. -/
def pluralMainStep (res : Resource) (addTarget : Bool)
    (tarPlurals : Option (List (String × List String))) (category : String)
    (acc : TMX × List (Option UnitKey)) (seg : Nat × String) :
    TMX × List (Option UnitKey) :=
  let tu := pluralUnit res addTarget tarPlurals category seg.1 seg.2
  let fresh := (assocLookup acc.1.tuhash tu.hashKey).isNone
  let other :=
    if category = "other" then
      acc.2 ++ [if fresh then some tu.hashKey else none]
    else acc.2
  (acc.1.addTranslationUnit tu, other)

/-- One step of the extra-category loop of the `plural` branch: attach
the target segment onto the `other`-category object at the same index.
A `some (some k)` entry is a stored object (the mutation lands on the
document's unit of key `k`); a `some none` entry is an orphan object
(the mutation is invisible); a missing entry (`none`) is the source's
`other[i].addVariant` on `undefined` — a `TypeError`, recorded in the
flag, which aborts the rest of the call. -/
def pluralExtraStep (res : Resource) (other : List (Option UnitKey))
    (acc2 : TMX × Bool) (seg : Nat × String) : TMX × Bool :=
  if acc2.2 then acc2
  else match other.get? seg.1 with
    | some (some k) =>
      match assocLookup acc2.1.tuhash k with
      | some u =>
        (acc2.1.updateUnit k
          (u.addVariant { locale := res.targetLocale.getD "", string := some seg.2 }),
         false)
      | none => acc2
    | some none => acc2
    | none => (acc2.1, true)

/-- The `plural` branch of `addResource`.  The returned flag is `true`
when the extra-category loop dereferenced a missing `other[i]` — at that
point the source throws a `TypeError`, aborting the call and leaving the
document in the state built so far. -/
def addResourcePlural (d : TMX) (res : Resource) (addTarget : Bool)
    (source : List (String × String)) (target : Option (List (String × String))) :
    TMX × Bool :=
  let srcPlurals : List (String × List String) :=
    source.map (fun p => (p.1, d.segmentString p.2))
  let tarPlurals : Option (List (String × List String)) :=
    target.map (fun l => l.map (fun p => (p.1, d.segmentString p.2)))
  let main := srcPlurals.foldl (fun acc cat =>
    (cat.2.enum).foldl (pluralMainStep res addTarget tarPlurals cat.1) acc) (d, [])
  let d1 := main.1
  let other := main.2
  match tarPlurals with
  | some tps =>
    if addTarget then
      tps.foldl (fun (acc : TMX × Bool) cat =>
        if acc.2 then acc
        else if (assocLookup srcPlurals cat.1).isSome then acc
        else (cat.2.enum).foldl (pluralExtraStep res other) acc) (d1, false)
    else (d1, false)
  | none => (d1, false)

/-- `addResource(res)`: a silent no-op when the resource's source locale
differs from the document's; otherwise dispatch on the payload shape.
The boolean is `true` when the call aborted with the plural branch's
`TypeError` (see `addResourcePlural`). -/
def TMX.addResource (d : TMX) (res : Resource) : TMX × Bool :=
  if res.sourceLocale ≠ d.sourceLocale then (d, false)
  else
    let addTarget : Bool :=
      match truthy res.targetLocale with
      | some t => t ≠ d.sourceLocale
      | none => false
    match res.payload with
    | ResourcePayload.str source target =>
      (addResourceString d res addTarget source target, false)
    | ResourcePayload.arr sourceArray target =>
      (addResourceArray d res addTarget sourceArray target, false)
    | ResourcePayload.plural source target =>
      addResourcePlural d res addTarget source target

/-- The list of `tu` elements in the body of a wire document. -/
def WireDoc.bodyTus (w : WireDoc) : List TuTree :=
  (((w.tmx.bind TmxTree.body).bind BodyTree.tu).getD [])

/-- The spec's consistency invariant between `units` and `unitIndex`:
every unit of `tu` has exactly one entry in `tuhash` under its identity
key (namely itself), and every entry of `tuhash` is a unit of `tu`
indexed under its own key. -/
def Agree (d : TMX) : Prop :=
  (∀ u ∈ d.tu, d.tuhash.filter (fun p => p.1 = u.hashKey) = [(u.hashKey, u)]) ∧
  (∀ p ∈ d.tuhash, p.2 ∈ d.tu ∧ p.1 = p.2.hashKey)

instance (d : TMX) : Decidable (Agree d) := by
  unfold Agree; infer_instance

/- ===== The explicit-store (heap) model.

JavaScript `TranslationUnit` objects are mutable and shared by reference:
`merge` seeds its result with the receiver's unit objects and `diff`
copies the other document's unit objects wholesale, so in-place variant
merging can mutate a unit owned by an *input* document.  The pure model
above cannot observe this, so the cross-document frame claims are stated
over an explicit store: unit objects live in a `Store` (index =
object identity) and documents hold indices.  ===== -/

namespace Heap

/-- The object store: unit objects addressed by allocation index. -/
abbrev Store := List TranslationUnit

/-- Dereference an object. -/
def readUnit (st : Store) (i : Nat) : TranslationUnit := st.getD i {}

/-- Mutate an object in place. -/
def writeUnit (st : Store) (i : Nat) (u : TranslationUnit) : Store := st.set i u

/-- A TMX document in the heap model: the same configuration fields as
`TMX`, with `tu`/`tuhash` holding object indices instead of values. -/
structure HTMX where
  version : String := "1.4"
  sourceLocale : String := "en"
  adminLocale : String := "en"
  properties : List (String × String) := [("datatype", "unknown"), ("segtype", "paragraph")]
  tu : List Nat := []
  tuhash : List (UnitKey × Nat) := []
deriving DecidableEq, Repr

/-- The `TMX` constructor in the heap model (only configuration fields;
a fresh document owns no units). -/
def HTMX.init (o : TmxOptions) : HTMX :=
  let t := TMX.init o
  { version := t.version, sourceLocale := t.sourceLocale,
    adminLocale := t.adminLocale, properties := t.properties }

/-- `addTranslationUnit` in the heap model: merging mutates the existing
object in the store; inserting records the incoming object's index. -/
def addTranslationUnit (st : Store) (d : HTMX) (i : Nat) : Store × HTMX :=
  let hashKey := (readUnit st i).hashKey
  match assocLookup d.tuhash hashKey with
  | some j =>
    (writeUnit st j ((readUnit st j).addVariants (readUnit st i).getVariants), d)
  | none =>
    (st, { d with tu := d.tu ++ [i], tuhash := d.tuhash ++ [(hashKey, i)] })

/-- `addTranslationUnits` in the heap model. -/
def addTranslationUnits (st : Store) (d : HTMX) (is : List Nat) : Store × HTMX :=
  is.foldl (fun acc i => addTranslationUnit acc.1 acc.2 i) (st, d)

/-- `mergeVariants` in the heap model: mutates the left object. -/
def mergeVariants (st : Store) (j i : Nat) : Store :=
  let left := readUnit st j
  let leftVariantHash := left.getVariants.map TranslationVariant.hashKey
  let right := readUnit st i
  writeUnit st j
    (left.addVariants (right.getVariants.filter (fun v => ¬ v.hashKey ∈ leftVariantHash)))

/-- `diff(other)` in the heap model: units of `other` absent from `this`
are adopted by index (shared, not copied); fresh diff units are
allocated at the end of the store. -/
def diff (st : Store) (d other : HTMX) : Store × HTMX :=
  let difftmx := HTMX.init
    { sourceLocale := some d.sourceLocale,
      version := some d.version,
      segmentation := assocLookup d.properties "segtype",
      creationtool := assocLookup d.properties "creationtool",
      creationtoolversion := assocLookup d.properties "creationtoolversion" }
  other.tu.foldl (fun acc i =>
    let tu := readUnit acc.1 i
    match assocLookup d.tuhash tu.hashKey with
    | some j =>
      let variantdiff := TMX.variantDiff (readUnit acc.1 j) tu
      if variantdiff.isEmpty then acc
      else
        let newTu := diffUnit tu variantdiff
        addTranslationUnit (acc.1 ++ [newTu]) acc.2 acc.1.length
    | none => addTranslationUnit acc.1 acc.2 i) (st, difftmx)

/-- `merge(tmxs)` in the heap model: the result document is seeded with
the receiver's unit objects (by index), then each unit of each other
document is merged in place into the object of equal key, or adopted by
index. -/
def merge (st : Store) (d : HTMX) (tmxs : List HTMX) : Store × HTMX :=
  if tmxs.isEmpty then (st, d)
  else
    let mergetmx := HTMX.init
      { sourceLocale := some d.sourceLocale,
        version := some d.version,
        segmentation := assocLookup d.properties "segtype",
        creationtool := assocLookup d.properties "creationtool",
        creationtoolversion := assocLookup d.properties "creationtoolversion" }
    let seeded := addTranslationUnits st mergetmx d.tu
    tmxs.foldl (fun acc tmx =>
      tmx.tu.foldl (fun acc2 i =>
        let tu := readUnit acc2.1 i
        match assocLookup acc2.2.tuhash tu.hashKey with
        | some j => (mergeVariants acc2.1 j i, acc2.2)
        | none => addTranslationUnit acc2.1 acc2.2 i) acc) seeded

end Heap

/- ===== Concrete fixtures for counterexamples and witnesses. ===== -/

/-- A unit whose own `datatype` differs from the document's `datatype`
property; it has two variants with distinct keys. -/
def exUnitOtherDatatype : TranslationUnit :=
  { sourceLocale := "en", source := some "a", datatype := some "x",
    variants := [⟨"en", some "a"⟩, ⟨"fr", some "b"⟩] }

/-- A document holding `exUnitOtherDatatype`. -/
def exDocOtherDatatype : TMX :=
  { tu := [exUnitOtherDatatype],
    tuhash := [(exUnitOtherDatatype.hashKey, exUnitOtherDatatype)] }

/-- A unit that satisfies all round-trip side conditions. -/
def exUnitGood : TranslationUnit :=
  { sourceLocale := "en", source := some "a", datatype := some "unknown",
    variants := [⟨"en", some "a"⟩, ⟨"fr", some "b"⟩] }

/-- A document holding `exUnitGood`. -/
def exDocGood : TMX :=
  { tu := [exUnitGood], tuhash := [(exUnitGood.hashKey, exUnitGood)] }

/-- A stored unit with one French variant (heap model, receiver side). -/
def exHeapUnitA : TranslationUnit :=
  { sourceLocale := "en", source := some "hello",
    variants := [⟨"fr", some "Bonjour"⟩] }

/-- A stored unit with the same identity key and one German variant
(heap model, other side). -/
def exHeapUnitB : TranslationUnit :=
  { sourceLocale := "en", source := some "hello",
    variants := [⟨"de", some "Hallo"⟩] }

/-- A two-object store holding the units above. -/
def exHeapStore : Heap.Store := [exHeapUnitA, exHeapUnitB]

/-- The receiver document of the heap example, owning object 0. -/
def exHeapDocA : Heap.HTMX := { tu := [0], tuhash := [(exHeapUnitA.hashKey, 0)] }

/-- The other document of the heap example, owning object 1. -/
def exHeapDocB : Heap.HTMX := { tu := [1], tuhash := [(exHeapUnitB.hashKey, 1)] }

/-- A stored unit with a distinct identity key (heap model, disjoint
other side). -/
def exHeapUnitC : TranslationUnit :=
  { sourceLocale := "en", source := some "bye",
    variants := [⟨"fr", some "Au revoir"⟩] }

/-- A two-object store whose units carry distinct identity keys. -/
def exHeapStoreC : Heap.Store := [exHeapUnitA, exHeapUnitC]

/-- A document owning object 1 of `exHeapStoreC`. -/
def exHeapDocC : Heap.HTMX := { tu := [1], tuhash := [(exHeapUnitC.hashKey, 1)] }

/-- A plural resource whose source lacks the `other` category while the
target carries an extra category (`few`). -/
def exResourceNoOther : Resource :=
  { sourceLocale := "en", targetLocale := some "fr",
    payload := ResourcePayload.plural [("one", "1 item")]
      (some [("one", "1 element"), ("few", "Q elements")]) }

/-- A plural resource with source categories `one`/`other` and an extra
target-only category `few`. -/
def exResourcePlural : Resource :=
  { sourceLocale := "en", targetLocale := some "fr",
    payload := ResourcePayload.plural [("one", "1 item"), ("other", "N items")]
      (some [("one", "1 element"), ("few", "Q elements"), ("other", "N elements")]) }

/-- A wire document whose root carries a version other than "1.4". -/
def exWireWrongVersion : WireDoc :=
  { tmx := some { attrs := some [("version", some "1.3")] } }

/-- A wire document whose `tmx` root carries no attributes object at all
(e.g. `<tmx><body/></tmx>`). -/
def exWireNoAttrs : WireDoc := { tmx := some {} }

/-- A simple string resource. -/
def exResourceString : Resource :=
  { sourceLocale := "en", targetLocale := some "fr",
    payload := ResourcePayload.str (some "Hello") (some "Bonjour") }

/-- The unit of spec example 4, document `A` side: variants
en:"Hello", fr:"Bonjour". -/
def exUnitA : TranslationUnit :=
  { sourceLocale := "en", source := some "Hello",
    variants := [⟨"en", some "Hello"⟩, ⟨"fr", some "Bonjour"⟩] }

/-- The unit of spec example 4, document `B` side: variants
en:"Hello", fr:"Salut", de:"Hallo". -/
def exUnitB : TranslationUnit :=
  { sourceLocale := "en", source := some "Hello",
    variants := [⟨"en", some "Hello"⟩, ⟨"fr", some "Salut"⟩, ⟨"de", some "Hallo"⟩] }

/-- Document `A` of spec example 4. -/
def exDiffDocA : TMX := { tu := [exUnitA], tuhash := [(exUnitA.hashKey, exUnitA)] }

/-- Document `B` of spec example 4. -/
def exDiffDocB : TMX := { tu := [exUnitB], tuhash := [(exUnitB.hashKey, exUnitB)] }

/-- A unit with a single variant (dropped by `serialize`). -/
def exUnitSingle : TranslationUnit :=
  { sourceLocale := "en", source := some "solo", datatype := some "unknown",
    variants := [⟨"en", some "solo"⟩] }

/-- A document with one single-variant unit and one two-variant unit. -/
def exDocC7 : TMX :=
  { tu := [exUnitSingle, exUnitGood],
    tuhash := [(exUnitSingle.hashKey, exUnitSingle), (exUnitGood.hashKey, exUnitGood)] }

/-- The string of the last variant with the given locale, when there is
one (the `tuv` loop of `parse` lets the last source-locale variant win
for the unit's `source`). -/
def lastSourceString (srcLoc : String) (vs : List TranslationVariant)
    (dflt : Option String) : Option String :=
  (((vs.filter (fun v => v.locale = srcLoc)).getLast?).map TranslationVariant.string).getD dflt

/- ===== Theorems ===== -/

lemma assocLookup_cons {α β : Type} [DecidableEq α] (p : α × β) (l : List (α × β)) (k : α) :
    assocLookup (p :: l) k = if p.1 = k then some p.2 else assocLookup l k := by
  by_cases h : p.1 = k <;> simp [assocLookup, List.find?, h]

lemma assocLookup_append_none {α β : Type} [DecidableEq α] {l1 : List (α × β)} {k : α}
    (l2 : List (α × β)) (h : assocLookup l1 k = none) :
    assocLookup (l1 ++ l2) k = assocLookup l2 k := by
  induction l1 with
  | nil => simp
  | cons p l ih =>
    rw [assocLookup_cons] at h
    rw [List.cons_append, assocLookup_cons]
    by_cases hp : p.1 = k
    · simp [hp] at h
    · simp only [hp, if_false] at h ⊢
      exact ih h

lemma assocLookup_append_some {α β : Type} [DecidableEq α] {l1 : List (α × β)} {k : α} {v : β}
    (l2 : List (α × β)) (h : assocLookup l1 k = some v) :
    assocLookup (l1 ++ l2) k = some v := by
  induction l1 with
  | nil => simp [assocLookup] at h
  | cons p l ih =>
    rw [assocLookup_cons] at h
    rw [List.cons_append, assocLookup_cons]
    by_cases hp : p.1 = k
    · simpa [hp] using h
    · simp only [hp, if_false] at h ⊢
      exact ih h

lemma assocLookup_map_ite {α β : Type} [DecidableEq α] (l : List (α × β)) (k : α) (x : β) :
    assocLookup (l.map (fun p => if p.1 = k then (k, x) else p)) k =
      (assocLookup l k).map (fun _ => x) := by
  induction l with
  | nil => simp [assocLookup]
  | cons p l ih =>
    by_cases hp : p.1 = k
    · rw [List.map_cons, if_pos hp, assocLookup_cons, assocLookup_cons, if_pos hp]
      simp
    · rw [List.map_cons, if_neg hp, assocLookup_cons, assocLookup_cons, if_neg hp, if_neg hp]
      exact ih

lemma assocLookup_map_ite_ne {α β : Type} [DecidableEq α] (l : List (α × β)) {k k' : α}
    (x : β) (h : k' ≠ k) :
    assocLookup (l.map (fun p => if p.1 = k then (k, x) else p)) k' = assocLookup l k' := by
  induction l with
  | nil => simp
  | cons p l ih =>
    by_cases hp : p.1 = k
    · have hk1 : ¬ ((k, x).1 = k') := fun hk => h hk.symm
      have hk2 : ¬ (p.1 = k') := fun hk => h (hp.symm.trans hk).symm
      rw [List.map_cons, if_pos hp, assocLookup_cons, if_neg hk1, assocLookup_cons, if_neg hk2]
      exact ih
    · rw [List.map_cons, if_neg hp, assocLookup_cons, assocLookup_cons]
      by_cases hp' : p.1 = k'
      · rw [if_pos hp', if_pos hp']
      · rw [if_neg hp', if_neg hp']
        exact ih

lemma assocLookup_eq_none_iff {α β : Type} [DecidableEq α] (l : List (α × β)) (k : α) :
    assocLookup l k = none ↔ ∀ p ∈ l, p.1 ≠ k := by
  induction l with
  | nil => simp [assocLookup]
  | cons p l ih =>
    rw [assocLookup_cons]
    by_cases hp : p.1 = k <;> simp [hp, ih]

lemma hashKey_addVariant (u : TranslationUnit) (v : TranslationVariant) :
    (u.addVariant v).hashKey = u.hashKey := by
  unfold TranslationUnit.addVariant
  split <;> rfl

lemma hashKey_addVariants (u : TranslationUnit) (vs : List TranslationVariant) :
    (u.addVariants vs).hashKey = u.hashKey := by
  induction vs generalizing u with
  | nil => rfl
  | cons v vs ih =>
    show ((u.addVariant v).addVariants vs).hashKey = u.hashKey
    rw [ih, hashKey_addVariant]

lemma mem_variantKeys_addVariant (u : TranslationUnit) (v : TranslationVariant) :
    v.hashKey ∈ (u.addVariant v).variantKeys := by
  unfold TranslationUnit.addVariant
  by_cases h : u.variants.any (fun w => w.hashKey = v.hashKey)
  · rw [if_pos h]
    rw [List.any_eq_true] at h
    obtain ⟨w, hw, hk⟩ := h
    simp only [decide_eq_true_eq] at hk
    exact hk ▸ List.mem_map_of_mem _ hw
  · rw [if_neg h]
    simp [TranslationUnit.variantKeys]

lemma variantKeys_mono_addVariant (u : TranslationUnit) (v : TranslationVariant)
    {k : String × Option String} (h : k ∈ u.variantKeys) :
    k ∈ (u.addVariant v).variantKeys := by
  unfold TranslationUnit.addVariant
  split
  · exact h
  · simp only [TranslationUnit.variantKeys, List.map_append, List.mem_append]
    exact Or.inl h

lemma variantKeys_mono_addVariants (u : TranslationUnit) (vs : List TranslationVariant)
    {k : String × Option String} (h : k ∈ u.variantKeys) :
    k ∈ (u.addVariants vs).variantKeys := by
  induction vs generalizing u with
  | nil => exact h
  | cons v vs ih =>
    exact ih (u.addVariant v) (variantKeys_mono_addVariant u v h)

lemma addVariants_append (u : TranslationUnit) (vs1 vs2 : List TranslationVariant) :
    u.addVariants (vs1 ++ vs2) = (u.addVariants vs1).addVariants vs2 := by
  simp [TranslationUnit.addVariants, List.foldl_append]

lemma mem_variantKeys_addVariants (u : TranslationUnit) {vs : List TranslationVariant}
    {v : TranslationVariant} (h : v ∈ vs) :
    v.hashKey ∈ (u.addVariants vs).variantKeys := by
  obtain ⟨s, t, rfl⟩ := List.append_of_mem h
  rw [addVariants_append]
  show v.hashKey ∈ (((u.addVariants s).addVariant v).addVariants t).variantKeys
  exact variantKeys_mono_addVariants _ t (mem_variantKeys_addVariant _ v)

lemma addVariant_of_mem (u : TranslationUnit) (v : TranslationVariant)
    (h : v.hashKey ∈ u.variantKeys) : u.addVariant v = u := by
  unfold TranslationUnit.addVariant
  rw [if_pos]
  simp only [TranslationUnit.variantKeys, List.mem_map] at h
  obtain ⟨w, hw, hk⟩ := h
  rw [List.any_eq_true]
  exact ⟨w, hw, by simp [hk]⟩

lemma addVariants_of_forall (u : TranslationUnit) (vs : List TranslationVariant)
    (h : ∀ v ∈ vs, v.hashKey ∈ u.variantKeys) : u.addVariants vs = u := by
  induction vs with
  | nil => rfl
  | cons v vs ih =>
    show (u.addVariant v).addVariants vs = u
    rw [addVariant_of_mem u v (h v (List.mem_cons_self _ _))]
    exact ih (fun w hw => h w (List.mem_cons_of_mem _ hw))

lemma addVariants_self (u : TranslationUnit) : u.addVariants u.variants = u :=
  addVariants_of_forall u u.variants
    (fun _ hv => List.mem_map_of_mem TranslationVariant.hashKey hv)

lemma addVariants_idem (u : TranslationUnit) (vs : List TranslationVariant) :
    (u.addVariants vs).addVariants vs = u.addVariants vs :=
  addVariants_of_forall _ vs (fun _ hv => mem_variantKeys_addVariants u hv)

lemma addTranslationUnit_eq (d : TMX) (u : TranslationUnit) :
    d.addTranslationUnit u =
      match assocLookup d.tuhash u.hashKey with
      | some existing => d.updateUnit u.hashKey (existing.addVariants u.getVariants)
      | none => { d with tu := d.tu ++ [u], tuhash := d.tuhash ++ [(u.hashKey, u)] } :=
  rfl

lemma addTranslationUnit_of_lookup_some {d : TMX} {u e : TranslationUnit}
    (h : assocLookup d.tuhash u.hashKey = some e) :
    d.addTranslationUnit u = d.updateUnit u.hashKey (e.addVariants u.getVariants) := by
  rw [addTranslationUnit_eq, h]

lemma addTranslationUnit_of_lookup_none {d : TMX} {u : TranslationUnit}
    (h : assocLookup d.tuhash u.hashKey = none) :
    d.addTranslationUnit u =
      { d with tu := d.tu ++ [u], tuhash := d.tuhash ++ [(u.hashKey, u)] } := by
  rw [addTranslationUnit_eq, h]

/-- C3 (amended): for every Document and every wire tree with a `tmx`
root whose `version` attribute is not the exact string "1.4",
`deserialize` always leaves the Document's entire state (units, index,
properties, locales) exactly as it was before the call — it never
reaches the state clear — and never produces the unit list; but the
error is reported only when the root carries an attributes object: a
root with no attributes object at all makes the `logger.error` argument
evaluate `json.tmx._attributes.version` on `undefined`, throwing a
`TypeError` with nothing logged (see the counterexample). -/
theorem c3_version_mismatch_amended (d : TMX) (w : WireDoc) (t : TmxTree)
    (hroot : w.tmx = some t) (hver : attrValue t.attrs "version" ≠ some "1.4") :
    (d.deserialize w).1 = d ∧
    (d.deserialize w).2.1 = none ∧
    ((∃ attrs, t.attrs = some attrs) →
      (d.deserialize w).2.2 = ([LogEvent.errorUnknownVersion], false)) ∧
    (t.attrs = none → (d.deserialize w).2.2 = ([], true)) := by
  unfold TMX.deserialize
  rw [hroot]
  dsimp only
  rw [if_neg hver]
  rcases t.attrs with _ | attrs
  · exact ⟨rfl, rfl, fun ⟨a, hc⟩ => Option.noConfusion hc, fun _ => rfl⟩
  · exact ⟨rfl, rfl, fun _ => rfl, fun hc => Option.noConfusion hc⟩

/-- C3 counterexample: a `tmx` root with no attributes object is in the
claim's domain (its version attribute is not "1.4"), yet `deserialize`
reports no error there — it throws the `TypeError` instead; only the
state preservation survives. -/
theorem c3_version_mismatch_counterexample :
    exWireNoAttrs.tmx = some {} ∧
    ¬ attrValue (({} : TmxTree)).attrs "version" = some "1.4" ∧
    (TMX.deserialize {} exWireNoAttrs).2.2.1 = [] ∧
    (TMX.deserialize {} exWireNoAttrs).2.2.2 = true ∧
    (TMX.deserialize {} exWireNoAttrs).1 = {} := by
  decide

/-- Witness for the amended C3 at a concrete document and a root with
version "1.3" and an attributes object. -/
theorem c3_version_mismatch_amended_witness :
    (TMX.deserialize {} exWireWrongVersion).1 = {} ∧
    (TMX.deserialize {} exWireWrongVersion).2.1 = none ∧
    (TMX.deserialize {} exWireWrongVersion).2.2 =
      ([LogEvent.errorUnknownVersion], false) := by
  have h := c3_version_mismatch_amended {} exWireWrongVersion _ rfl (by decide)
  exact ⟨h.1, h.2.1, h.2.2.1 ⟨_, rfl⟩⟩

/-- C10: for every Document and every wire text whose parsed form has no
`tmx` root, `deserialize` is a silent no-op: the document is returned
unchanged (units, index, properties, locales), the log is empty (no
error, unlike the version-mismatch path), and the existing unit list is
returned. -/
theorem c10_no_root_silent_noop (d : TMX) (w : WireDoc) (h : w.tmx = none) :
    d.deserialize w = (d, some d.tu, [], false) := by
  unfold TMX.deserialize
  rw [h]

/-- Witness for C10 at a concrete document and an empty wire document. -/
theorem c10_no_root_silent_noop_witness :
    TMX.deserialize exDocGood {} = (exDocGood, some exDocGood.tu, [], false) :=
  c10_no_root_silent_noop exDocGood {} rfl

/-- C4: adding the identical unit a second time leaves `size()` unchanged
and leaves the stored unit's variant identity keys equal to their value
after the first call (no duplicate variant keys are introduced). -/
theorem c4_add_translation_unit_idempotent (d : TMX) (u : TranslationUnit) :
    ((d.addTranslationUnit u).addTranslationUnit u).size = (d.addTranslationUnit u).size ∧
    (assocLookup ((d.addTranslationUnit u).addTranslationUnit u).tuhash u.hashKey).map
        TranslationUnit.variantKeys =
      (assocLookup (d.addTranslationUnit u).tuhash u.hashKey).map
        TranslationUnit.variantKeys := by
  rcases h : assocLookup d.tuhash u.hashKey with _ | e
  · -- first call pushes the unit
    have h2 : assocLookup (d.addTranslationUnit u).tuhash u.hashKey = some u := by
      rw [addTranslationUnit_of_lookup_none h]
      show assocLookup (d.tuhash ++ [(u.hashKey, u)]) u.hashKey = some u
      rw [assocLookup_append_none _ h, assocLookup_cons]
      simp
    have hself : u.addVariants u.getVariants = u := addVariants_self u
    have hstep : (d.addTranslationUnit u).addTranslationUnit u =
        (d.addTranslationUnit u).updateUnit u.hashKey u := by
      rw [addTranslationUnit_of_lookup_some h2, hself]
    constructor
    · rw [hstep]
      simp [TMX.size, TMX.updateUnit]
    · rw [hstep]
      show (assocLookup ((d.addTranslationUnit u).tuhash.map
          (fun p => if p.1 = u.hashKey then (u.hashKey, u) else p)) u.hashKey).map _ = _
      rw [assocLookup_map_ite, h2]
      rfl
  · -- first call merges into an existing unit
    have h2 : assocLookup (d.addTranslationUnit u).tuhash u.hashKey =
        some (e.addVariants u.getVariants) := by
      rw [addTranslationUnit_of_lookup_some h]
      show assocLookup (d.tuhash.map
        (fun p => if p.1 = u.hashKey then (u.hashKey, e.addVariants u.getVariants) else p))
        u.hashKey = _
      rw [assocLookup_map_ite, h]
      rfl
    have hidem : (e.addVariants u.getVariants).addVariants u.getVariants =
        e.addVariants u.getVariants := addVariants_idem e u.getVariants
    have hstep2 : (d.addTranslationUnit u).addTranslationUnit u =
        (d.addTranslationUnit u).updateUnit u.hashKey (e.addVariants u.getVariants) := by
      rw [addTranslationUnit_of_lookup_some h2, hidem]
    constructor
    · rw [hstep2]
      simp [TMX.size, TMX.updateUnit]
    · rw [hstep2]
      show (assocLookup ((d.addTranslationUnit u).tuhash.map
          (fun p => if p.1 = u.hashKey then (u.hashKey, e.addVariants u.getVariants) else p))
          u.hashKey).map _ = _
      rw [assocLookup_map_ite, h2]
      rfl

lemma filterMap_serialize (L : List TranslationUnit) (h : ∀ u ∈ L, 1 < u.variants.length) :
    L.filterMap serializeTranslationUnit = L.map serializeTranslationUnitBody := by
  induction L with
  | nil => rfl
  | cons u L ih =>
    rw [List.filterMap_cons, List.map_cons]
    have h1 : 1 < u.variants.length := h u (List.mem_cons_self _ _)
    have hu : serializeTranslationUnit u = some (serializeTranslationUnitBody u) := by
      unfold serializeTranslationUnit
      rw [if_neg (by omega)]
    rw [hu]
    exact congrArg _ (ih (fun v hv => h v (List.mem_cons_of_mem _ hv)))

lemma serialize_bodyTus (d : TMX) :
    (d.serialize).bodyTus =
      (d.tu.filter (fun u => u.variants.length > 1)).filterMap serializeTranslationUnit :=
  rfl

/-- C7: `serialize` emits no `tu` element for a unit with fewer than two
variants: a document all of whose units have a single variant serializes
to a body with zero `tu` elements, and a unit contributes a `tu` element
exactly when it has at least two variants. -/
theorem c7_serialize_drop_rule (d : TMX) :
    ((∀ u ∈ d.tu, u.variants.length < 2) → (d.serialize).bodyTus = []) ∧
    (d.serialize).bodyTus.length =
      (d.tu.filter (fun u => u.variants.length > 1)).length ∧
    (∀ u ∈ d.tu, 2 ≤ u.variants.length →
      serializeTranslationUnitBody u ∈ (d.serialize).bodyTus) ∧
    (∀ t ∈ (d.serialize).bodyTus,
      ∃ u ∈ d.tu, 2 ≤ u.variants.length ∧ t = serializeTranslationUnitBody u) := by
  have hmem : ∀ u ∈ d.tu.filter (fun u => u.variants.length > 1), 1 < u.variants.length := by
    intro u hu
    have := (List.mem_filter.mp hu).2
    simpa using this
  have hbody : (d.serialize).bodyTus =
      (d.tu.filter (fun u => u.variants.length > 1)).map serializeTranslationUnitBody := by
    rw [serialize_bodyTus]
    exact filterMap_serialize _ hmem
  refine ⟨?_, ?_, ?_, ?_⟩
  · intro hall
    rw [hbody]
    have : d.tu.filter (fun u => u.variants.length > 1) = [] := by
      rw [List.filter_eq_nil_iff]
      intro u hu
      have := hall u hu
      simp only [decide_eq_true_eq, not_lt]
      omega
    rw [this, List.map_nil]
  · rw [hbody, List.length_map]
  · intro u hu h2
    rw [hbody]
    exact List.mem_map_of_mem _ (List.mem_filter.mpr ⟨hu, by simpa using h2⟩)
  · intro t ht
    rw [hbody] at ht
    obtain ⟨u, hu, rfl⟩ := List.mem_map.mp ht
    exact ⟨u, (List.mem_filter.mp hu).1, by simpa using hmem u hu, rfl⟩

/-- Witness for C7 at a document with a one-variant unit and a
two-variant unit. -/
theorem c7_serialize_drop_rule_witness :
    serializeTranslationUnitBody exUnitGood ∈ (TMX.serialize exDocC7).bodyTus ∧
    (TMX.serialize exDocC7).bodyTus.length = 1 := by
  have h := c7_serialize_drop_rule exDocC7
  refine ⟨h.2.2.1 exUnitGood (by decide) (by decide), ?_⟩
  rw [h.2.1]
  decide

lemma assocLookup_some_mem {α β : Type} [DecidableEq α] {l : List (α × β)} {k : α} {v : β}
    (h : assocLookup l k = some v) : (k, v) ∈ l := by
  induction l with
  | nil => simp [assocLookup] at h
  | cons p l ih =>
    rw [assocLookup_cons] at h
    by_cases hp : p.1 = k
    · rw [if_pos hp] at h
      obtain ⟨p1, p2⟩ := p
      obtain rfl : p1 = k := hp
      obtain rfl : p2 = v := Option.some.inj h
      exact List.mem_cons_self _ _
    · rw [if_neg hp] at h
      exact List.mem_cons_of_mem _ (ih h)

lemma filter_key_eq_nil {α β : Type} [DecidableEq α] {l : List (α × β)} {k : α}
    (h : assocLookup l k = none) : l.filter (fun p => p.1 = k) = [] := by
  rw [List.filter_eq_nil_iff]
  intro p hp
  simpa using (assocLookup_eq_none_iff l k).mp h p hp

lemma filter_key_map_ite_self {α β : Type} [DecidableEq α] (l : List (α × β)) (k : α) (x : β) :
    (l.map (fun p => if p.1 = k then (k, x) else p)).filter (fun p => p.1 = k) =
      (l.filter (fun p => p.1 = k)).map (fun _ => (k, x)) := by
  induction l with
  | nil => rfl
  | cons p l ih =>
    by_cases hp : p.1 = k
    · rw [List.map_cons, if_pos hp, List.filter_cons, List.filter_cons, if_pos (by simp),
        if_pos (by simp [hp]), List.map_cons]
      exact congrArg _ ih
    · rw [List.map_cons, if_neg hp, List.filter_cons, List.filter_cons, if_neg (by simp [hp]),
        if_neg (by simp [hp])]
      exact ih

lemma filter_key_map_ite_ne {α β : Type} [DecidableEq α] (l : List (α × β)) {k k' : α}
    (x : β) (h : k' ≠ k) :
    (l.map (fun p => if p.1 = k then (k, x) else p)).filter (fun p => p.1 = k') =
      l.filter (fun p => p.1 = k') := by
  induction l with
  | nil => rfl
  | cons p l ih =>
    by_cases hp : p.1 = k
    · rw [List.map_cons, if_pos hp, List.filter_cons, List.filter_cons,
        if_neg (by simp; exact fun hk => h hk.symm),
        if_neg (by simp [hp]; exact fun hk => h hk.symm)]
      exact ih
    · rw [List.map_cons, if_neg hp, List.filter_cons, List.filter_cons]
      by_cases hp' : p.1 = k'
      · rw [if_pos (by simp [hp']), if_pos (by simp [hp'])]
        exact congrArg _ ih
      · rw [if_neg (by simp [hp']), if_neg (by simp [hp'])]
        exact ih

lemma updateUnit_tu (d : TMX) (k : UnitKey) (x : TranslationUnit) :
    (d.updateUnit k x).tu = d.tu.map (fun t => if t.hashKey = k then x else t) := rfl

lemma updateUnit_tuhash (d : TMX) (k : UnitKey) (x : TranslationUnit) :
    (d.updateUnit k x).tuhash = d.tuhash.map (fun p => if p.1 = k then (k, x) else p) := rfl

lemma agree_updateUnit {d : TMX} {k : UnitKey} {e x : TranslationUnit}
    (hA : Agree d) (hl : assocLookup d.tuhash k = some e) (hx : x.hashKey = k) :
    Agree (d.updateUnit k x) := by
  obtain ⟨h1, h2⟩ := hA
  obtain ⟨heMem, heKey⟩ := h2 (k, e) (assocLookup_some_mem hl)
  dsimp only at heMem heKey
  constructor
  · intro u' hu'
    rw [updateUnit_tu] at hu'
    obtain ⟨t, ht, rfl⟩ := List.mem_map.mp hu'
    rw [updateUnit_tuhash]
    by_cases hc : t.hashKey = k
    · rw [if_pos hc, hx, filter_key_map_ite_self, heKey, h1 e heMem, List.map_cons,
        List.map_nil]
    · rw [if_neg hc, filter_key_map_ite_ne _ _ hc, h1 t ht]
  · intro p hp
    rw [updateUnit_tuhash] at hp
    obtain ⟨q, hq, rfl⟩ := List.mem_map.mp hp
    by_cases hc : q.1 = k
    · rw [if_pos hc]
      refine ⟨?_, hx.symm⟩
      rw [updateUnit_tu]
      exact List.mem_map.mpr ⟨e, heMem, by rw [if_pos heKey.symm]⟩
    · rw [if_neg hc]
      obtain ⟨hqm, hqk⟩ := h2 q hq
      refine ⟨?_, hqk⟩
      rw [updateUnit_tu]
      exact List.mem_map.mpr ⟨q.2, hqm, by rw [if_neg (fun hh => hc (hqk.symm ▸ hh))]⟩

lemma agree_addTranslationUnit {d : TMX} (u : TranslationUnit) (hA : Agree d) :
    Agree (d.addTranslationUnit u) := by
  rcases h : assocLookup d.tuhash u.hashKey with _ | e
  · rw [addTranslationUnit_of_lookup_none h]
    obtain ⟨h1, h2⟩ := hA
    constructor
    · intro u' hu'
      show (d.tuhash ++ [(u.hashKey, u)]).filter (fun p => p.1 = u'.hashKey) =
        [(u'.hashKey, u')]
      rcases List.mem_append.mp hu' with hmem | hmem
      · have hne : u'.hashKey ≠ u.hashKey := by
          intro hk
          have hsing := h1 u' hmem
          have hmem2 : (u'.hashKey, u') ∈ d.tuhash := by
            have : (u'.hashKey, u') ∈ d.tuhash.filter (fun p => p.1 = u'.hashKey) := by
              rw [hsing]
              exact List.mem_cons_self _ _
            exact List.mem_of_mem_filter this
          exact (assocLookup_eq_none_iff _ _).mp h _ hmem2 hk
        rw [List.filter_append, h1 u' hmem, List.filter_cons,
          if_neg (by simp; exact fun hk => hne hk.symm), List.filter_nil, List.append_nil]
      · rw [List.mem_singleton] at hmem
        subst hmem
        rw [List.filter_append, filter_key_eq_nil h, List.nil_append, List.filter_cons,
          if_pos (by simp), List.filter_nil]
    · intro p hp
      rcases List.mem_append.mp hp with hm | hm
      · obtain ⟨a, b⟩ := h2 p hm
        exact ⟨List.mem_append_left _ a, b⟩
      · rw [List.mem_singleton] at hm
        subst hm
        exact ⟨List.mem_append_right _ (List.mem_cons_self _ _), rfl⟩
  · obtain ⟨_, hke⟩ := hA.2 (u.hashKey, e) (assocLookup_some_mem h)
    rw [addTranslationUnit_of_lookup_some h]
    exact agree_updateUnit hA h ((hashKey_addVariants e u.getVariants).trans hke.symm)

lemma agree_foldl {β : Type} (L : List β) (step : TMX → β → TMX)
    (hstep : ∀ acc b, Agree acc → Agree (step acc b)) :
    ∀ acc, Agree acc → Agree (L.foldl step acc) := by
  induction L with
  | nil => exact fun _ h => h
  | cons b L ih => exact fun acc h => ih _ (hstep acc b h)

lemma agree_foldl_fst {β γ : Type} (L : List β) (step : TMX × γ → β → TMX × γ)
    (hstep : ∀ acc b, Agree acc.1 → Agree (step acc b).1) :
    ∀ acc, Agree acc.1 → Agree (L.foldl step acc).1 := by
  induction L with
  | nil => exact fun _ h => h
  | cons b L ih => exact fun acc h => ih _ (hstep acc b h)

lemma agree_of_eq {d1 d2 : TMX} (h1 : d1.tu = d2.tu) (h2 : d1.tuhash = d2.tuhash)
    (hA : Agree d2) : Agree d1 := by
  unfold Agree at hA ⊢
  rw [h1, h2]
  exact hA

lemma foldl_preserves_units {β : Type} (L : List β) (step : TMX → β → TMX)
    (h : ∀ acc b, (step acc b).tu = acc.tu ∧ (step acc b).tuhash = acc.tuhash) :
    ∀ acc, (L.foldl step acc).tu = acc.tu ∧ (L.foldl step acc).tuhash = acc.tuhash := by
  induction L with
  | nil => exact fun _ => ⟨rfl, rfl⟩
  | cons b L ih =>
    intro acc
    obtain ⟨h1, h2⟩ := ih (step acc b)
    obtain ⟨h3, h4⟩ := h acc b
    exact ⟨h1.trans h3, h2.trans h4⟩

lemma parseHeader_units (d : TMX) (t : TmxTree) :
    (parseHeader d t).tu = d.tu ∧ (parseHeader d t).tuhash = d.tuhash := by
  unfold parseHeader
  rcases t.header with _ | h
  · exact ⟨rfl, rfl⟩
  · dsimp only
    rcases h.attrs with _ | attrs
    · exact ⟨rfl, rfl⟩
    · dsimp only
      have hf := foldl_preserves_units headerAttrs
        (fun acc a =>
          match truthy (assocLookup attrs a).join with
          | some v => { acc with properties := setAssoc acc.properties a v }
          | none => acc)
        (by
          intro acc b
          dsimp only
          rcases truthy (assocLookup attrs b).join with _ | v
          · exact ⟨rfl, rfl⟩
          · exact ⟨rfl, rfl⟩) d
      rcases truthy (assocLookup attrs "srclang").join with _ | s <;>
        rcases truthy (assocLookup attrs "adminlang").join with _ | s' <;>
        exact hf

lemma agree_parseHeader {d : TMX} (t : TmxTree) (hA : Agree d) : Agree (parseHeader d t) :=
  agree_of_eq (parseHeader_units d t).1 (parseHeader_units d t).2 hA

lemma agree_parse {d : TMX} (t : TmxTree) (hA : Agree d) : Agree (d.parse t).1 := by
  unfold TMX.parse
  rcases t.body with _ | b
  · exact agree_parseHeader t hA
  · dsimp only
    rcases b.tu with _ | units
    · exact agree_parseHeader t hA
    · dsimp only
      exact agree_foldl_fst units _
        (fun acc ut hacc => agree_addTranslationUnit _ hacc) _ (agree_parseHeader t hA)

lemma agree_empty_units (d : TMX) : Agree { d with tu := [], tuhash := [] } :=
  ⟨fun u hu => absurd hu (List.not_mem_nil u), fun p hp => absurd hp (List.not_mem_nil p)⟩

lemma agree_deserialize {d : TMX} (w : WireDoc) (hA : Agree d) :
    Agree (d.deserialize w).1 := by
  unfold TMX.deserialize
  rcases w.tmx with _ | t
  · exact hA
  · dsimp only
    by_cases hv : attrValue t.attrs "version" = some "1.4"
    · rw [if_pos hv]
      exact agree_parse t (agree_empty_units d)
    · rw [if_neg hv]
      rcases t.attrs with _ | attrs
      · exact hA
      · exact hA

lemma agree_pluralExtraStep (res : Resource) (other : List (Option UnitKey))
    (acc2 : TMX × Bool) (seg : Nat × String) (hA : Agree acc2.1) :
    Agree (pluralExtraStep res other acc2 seg).1 := by
  unfold pluralExtraStep
  by_cases hb : acc2.2
  · rw [if_pos hb]
    exact hA
  · rw [if_neg hb]
    rcases other.get? seg.1 with _ | ok
    · exact hA
    · rcases ok with _ | k
      · exact hA
      · dsimp only
        rcases hl : assocLookup acc2.1.tuhash k with _ | u
        · exact hA
        · dsimp only
          obtain ⟨_, hku⟩ := hA.2 (k, u) (assocLookup_some_mem hl)
          have hku' : k = u.hashKey := hku
          exact agree_updateUnit hA hl ((hashKey_addVariant u _).trans hku'.symm)

lemma agree_addResourcePlural (d : TMX) (res : Resource) (addTarget : Bool)
    (source : List (String × String)) (target : Option (List (String × String)))
    (hA : Agree d) : Agree (addResourcePlural d res addTarget source target).1 := by
  unfold addResourcePlural
  have hmain : Agree ((source.map (fun p => (p.1, d.segmentString p.2))).foldl
      (fun acc cat => (cat.2.enum).foldl
        (pluralMainStep res addTarget
          (target.map (fun l => l.map (fun p => (p.1, d.segmentString p.2)))) cat.1) acc)
      (d, [])).1 :=
    agree_foldl_fst _ _
      (fun acc cat hacc => agree_foldl_fst _ _
        (fun acc2 seg hacc2 => agree_addTranslationUnit _ hacc2) acc hacc)
      (d, []) hA
  rcases target with _ | tl
  · exact hmain
  · dsimp only [Option.map]
    by_cases ht : addTarget
    · rw [if_pos ht]
      refine agree_foldl_fst _ _ ?_ _ hmain
      intro acc cat hacc
      dsimp only
      by_cases hb : acc.2
      · rw [if_pos hb]
        exact hacc
      · rw [if_neg hb]
        by_cases hs : (assocLookup (source.map (fun p => (p.1, d.segmentString p.2)))
            cat.1).isSome
        · rw [if_pos hs]
          exact hacc
        · rw [if_neg hs]
          exact agree_foldl_fst _ _
            (fun acc2 seg hacc2 => agree_pluralExtraStep res _ acc2 seg hacc2) acc hacc
    · rw [if_neg ht]
      exact hmain

lemma agree_addResourceString (d : TMX) (res : Resource) (addTarget : Bool)
    (source target : Option String) (hA : Agree d) :
    Agree (addResourceString d res addTarget source target) := by
  unfold addResourceString
  exact agree_foldl _ _ (fun acc b h => agree_addTranslationUnit _ h) d hA

lemma agree_addResourceArray (d : TMX) (res : Resource) (addTarget : Bool)
    (sourceArray : List String) (target : Option (List String)) (hA : Agree d) :
    Agree (addResourceArray d res addTarget sourceArray target) := by
  unfold addResourceArray
  exact agree_foldl _ _
    (fun acc el h => agree_foldl _ _
      (fun acc2 b h2 => agree_addTranslationUnit _ h2) acc h) d hA

lemma agree_addResource (d : TMX) (res : Resource) (hA : Agree d) :
    Agree (d.addResource res).1 := by
  unfold TMX.addResource
  by_cases hne : res.sourceLocale ≠ d.sourceLocale
  · rw [if_pos hne]
    exact hA
  · rw [if_neg hne]
    rcases res.payload with ⟨source, target⟩ | ⟨sourceArray, target⟩ | ⟨source, target⟩
    · exact agree_addResourceString d res _ source target hA
    · exact agree_addResourceArray d res _ sourceArray target hA
    · exact agree_addResourcePlural d res _ source target hA

/-- C9: `addTranslationUnit`, `addResource` and `deserialize` all
preserve the invariant that `units` and `unitIndex` agree: every unit of
the list has exactly one index entry under its identity key, and every
index entry is a unit of the list under its own key. -/
theorem c9_index_invariant (d : TMX) (u : TranslationUnit) (res : Resource) (w : WireDoc)
    (h : Agree d) :
    Agree (d.addTranslationUnit u) ∧ Agree (d.addResource res).1 ∧
      Agree (d.deserialize w).1 :=
  ⟨agree_addTranslationUnit u h, agree_addResource d res h, agree_deserialize w h⟩

/-- Witness for C9 at the empty document with a concrete unit, resource
and wire document. -/
theorem c9_index_invariant_witness :
    Agree (TMX.addTranslationUnit {} exUnitGood) ∧
      Agree (TMX.addResource {} exResourcePlural).1 ∧
      Agree (TMX.deserialize {} exWireWrongVersion).1 :=
  c9_index_invariant {} exUnitGood exResourcePlural exWireWrongVersion (by decide)

lemma mem_variants_addVariant {x : TranslationUnit} {w v : TranslationVariant}
    (h : v ∈ (x.addVariant w).variants) : v ∈ x.variants ∨ v = w := by
  unfold TranslationUnit.addVariant at h
  split at h
  · exact Or.inl h
  · rcases List.mem_append.mp h with h | h
    · exact Or.inl h
    · exact Or.inr (List.mem_singleton.mp h)

lemma mem_variants_addVariants {x : TranslationUnit} {vs : List TranslationVariant}
    {v : TranslationVariant} (h : v ∈ (x.addVariants vs).variants) :
    v ∈ x.variants ∨ v ∈ vs := by
  induction vs generalizing x with
  | nil => exact Or.inl h
  | cons w ws ih =>
    rcases ih h with h2 | h2
    · rcases mem_variants_addVariant h2 with h3 | h3
      · exact Or.inl h3
      · exact Or.inr (h3 ▸ List.mem_cons_self _ _)
    · exact Or.inr (List.mem_cons_of_mem _ h2)

lemma mem_variantKeys_addVariants_iff (x : TranslationUnit) (vs : List TranslationVariant)
    (vk : String × Option String) :
    vk ∈ (x.addVariants vs).variantKeys ↔
      vk ∈ x.variantKeys ∨ ∃ v ∈ vs, v.hashKey = vk := by
  constructor
  · intro h
    obtain ⟨w, hw, rfl⟩ := List.mem_map.mp h
    rcases mem_variants_addVariants hw with h2 | h2
    · exact Or.inl (List.mem_map_of_mem _ h2)
    · exact Or.inr ⟨w, h2, rfl⟩
  · rintro (h | ⟨v, hv, rfl⟩)
    · exact variantKeys_mono_addVariants x vs h
    · exact mem_variantKeys_addVariants x hv

lemma addVariants_filter_keys (K : List (String × Option String)) :
    ∀ (u : TranslationUnit) (vs : List TranslationVariant),
      (∀ k ∈ K, k ∈ u.variantKeys) →
      u.addVariants (vs.filter (fun v => ¬ v.hashKey ∈ K)) = u.addVariants vs := by
  intro u vs
  induction vs generalizing u with
  | nil => intro _; rfl
  | cons v ws ih =>
    intro hK
    by_cases hv : v.hashKey ∈ K
    · rw [List.filter_cons, if_neg (by simp [hv])]
      show u.addVariants (ws.filter _) = (u.addVariant v).addVariants ws
      rw [addVariant_of_mem u v (hK _ hv), ih u hK]
    · rw [List.filter_cons, if_pos (by simp [hv])]
      show (u.addVariant v).addVariants (ws.filter _) = (u.addVariant v).addVariants ws
      exact ih (u.addVariant v) (fun k hk => variantKeys_mono_addVariant u v (hK k hk))

lemma mergeVariants_eq_addVariants (l r : TranslationUnit) :
    TMX.mergeVariants l r = l.addVariants r.getVariants := by
  unfold TMX.mergeVariants
  exact addVariants_filter_keys _ l r.getVariants (fun k hk => hk)

/-- The stronger shape that every reachable document's storage has:
`tuhash` is exactly the key-indexed image of `tu`, and the unit keys are
pairwise distinct. -/
def Inv (d : TMX) : Prop :=
  d.tuhash = d.tu.map (fun u => (u.hashKey, u)) ∧
    (d.tu.map TranslationUnit.hashKey).Nodup

instance (d : TMX) : Decidable (Inv d) := by
  unfold Inv; infer_instance

lemma inv_lookup_some {d : TMX} {u e : TranslationUnit} (hI : Inv d)
    (he : assocLookup d.tuhash u.hashKey = some e) :
    e ∈ d.tu ∧ e.hashKey = u.hashKey := by
  have hm := assocLookup_some_mem he
  rw [hI.1] at hm
  obtain ⟨t, ht, hp⟩ := List.mem_map.mp hm
  obtain ⟨h1, h2⟩ := Prod.mk.injEq _ _ _ _ ▸ hp
  exact ⟨h2 ▸ ht, h2 ▸ h1⟩

lemma inv_lookup_none {d : TMX} {k : UnitKey} (hI : Inv d)
    (he : assocLookup d.tuhash k = none) : ∀ t ∈ d.tu, t.hashKey ≠ k := by
  intro t ht
  have := (assocLookup_eq_none_iff _ _).mp he
  rw [hI.1] at this
  exact this (t.hashKey, t) (List.mem_map_of_mem _ ht)

lemma inv_lookup_isSome {d : TMX} {t : TranslationUnit} (hI : Inv d) (ht : t ∈ d.tu) :
    assocLookup d.tuhash t.hashKey ≠ none := by
  intro hn
  exact inv_lookup_none hI hn t ht rfl

lemma inv_addTranslationUnit {d : TMX} (u : TranslationUnit) (hI : Inv d) :
    Inv (d.addTranslationUnit u) := by
  rcases h : assocLookup d.tuhash u.hashKey with _ | e
  · rw [addTranslationUnit_of_lookup_none h]
    constructor
    · show d.tuhash ++ [(u.hashKey, u)] = (d.tu ++ [u]).map _
      rw [List.map_append, hI.1]
      rfl
    · show ((d.tu ++ [u]).map TranslationUnit.hashKey).Nodup
      rw [List.map_append]
      refine List.Nodup.append hI.2 (List.nodup_singleton _) ?_
      intro k hk hk2
      obtain ⟨t, ht, rfl⟩ := List.mem_map.mp hk
      rw [List.map_singleton, List.mem_singleton] at hk2
      exact inv_lookup_none hI h t ht hk2
  · obtain ⟨heMem, heKey⟩ := inv_lookup_some hI h
    rw [addTranslationUnit_of_lookup_some h]
    have hmk : (e.addVariants u.getVariants).hashKey = u.hashKey :=
      (hashKey_addVariants e u.getVariants).trans heKey
    constructor
    · rw [updateUnit_tuhash, updateUnit_tu, hI.1, List.map_map, List.map_map]
      refine List.map_congr_left ?_
      intro t _
      dsimp only [Function.comp]
      by_cases hc : t.hashKey = u.hashKey
      · rw [if_pos hc, if_pos hc, hmk]
      · rw [if_neg hc, if_neg hc]
    · rw [updateUnit_tu, List.map_map]
      have hkeys : (TranslationUnit.hashKey ∘ fun t =>
          if t.hashKey = u.hashKey then e.addVariants u.getVariants else t) =
          TranslationUnit.hashKey := by
        funext t
        dsimp only [Function.comp]
        by_cases hc : t.hashKey = u.hashKey
        · rw [if_pos hc, hmk, hc]
        · rw [if_neg hc]
      rw [hkeys]
      exact hI.2

lemma addTranslationUnit_char (d0 : TMX) (u : TranslationUnit) (hI : Inv d0) :
    (∀ k, (∃ w ∈ (d0.addTranslationUnit u).tu, w.hashKey = k) ↔
      (∃ w ∈ d0.tu, w.hashKey = k) ∨ u.hashKey = k) ∧
    (∀ k vk, (∃ w ∈ (d0.addTranslationUnit u).tu, w.hashKey = k ∧ vk ∈ w.variantKeys) ↔
      ((∃ w ∈ d0.tu, w.hashKey = k ∧ vk ∈ w.variantKeys) ∨
        (u.hashKey = k ∧ vk ∈ u.variantKeys))) ∧
    (∀ k v, (∃ w ∈ (d0.addTranslationUnit u).tu, w.hashKey = k ∧ v ∈ w.variants) →
      ((∃ w ∈ d0.tu, w.hashKey = k ∧ v ∈ w.variants) ∨
        (u.hashKey = k ∧ v ∈ u.variants))) := by
  rcases h : assocLookup d0.tuhash u.hashKey with _ | e
  · -- push branch
    have htu : (d0.addTranslationUnit u).tu = d0.tu ++ [u] := by
      rw [addTranslationUnit_of_lookup_none h]
    refine ⟨?_, ?_, ?_⟩
    · intro k
      rw [htu]
      constructor
      · rintro ⟨w, hw, rfl⟩
        rcases List.mem_append.mp hw with hw | hw
        · exact Or.inl ⟨w, hw, rfl⟩
        · exact Or.inr (congrArg TranslationUnit.hashKey (List.mem_singleton.mp hw)).symm
      · rintro (⟨w, hw, rfl⟩ | rfl)
        · exact ⟨w, List.mem_append_left _ hw, rfl⟩
        · exact ⟨u, List.mem_append_right _ (List.mem_cons_self _ _), rfl⟩
    · intro k vk
      rw [htu]
      constructor
      · rintro ⟨w, hw, hk, hvk⟩
        rcases List.mem_append.mp hw with hw | hw
        · exact Or.inl ⟨w, hw, hk, hvk⟩
        · obtain rfl := List.mem_singleton.mp hw
          exact Or.inr ⟨hk, hvk⟩
      · rintro (⟨w, hw, hk, hvk⟩ | ⟨hk, hvk⟩)
        · exact ⟨w, List.mem_append_left _ hw, hk, hvk⟩
        · exact ⟨u, List.mem_append_right _ (List.mem_cons_self _ _), hk, hvk⟩
    · intro k v
      rw [htu]
      rintro ⟨w, hw, hk, hv⟩
      rcases List.mem_append.mp hw with hw | hw
      · exact Or.inl ⟨w, hw, hk, hv⟩
      · obtain rfl := List.mem_singleton.mp hw
        exact Or.inr ⟨hk, hv⟩
  · -- merge branch
    obtain ⟨heMem, heKey⟩ := inv_lookup_some hI h
    have hmk : (e.addVariants u.getVariants).hashKey = u.hashKey :=
      (hashKey_addVariants e u.getVariants).trans heKey
    have htu : (d0.addTranslationUnit u).tu = d0.tu.map
        (fun t => if t.hashKey = u.hashKey then e.addVariants u.getVariants else t) := by
      rw [addTranslationUnit_of_lookup_some h, updateUnit_tu]
    have hinj : ∀ x ∈ d0.tu, ∀ y ∈ d0.tu,
        x.hashKey = y.hashKey → x = y := fun x hx y hy hk =>
      List.inj_on_of_nodup_map hI.2 hx hy hk
    refine ⟨?_, ?_, ?_⟩
    · intro k
      rw [htu]
      constructor
      · rintro ⟨w, hw, rfl⟩
        obtain ⟨t, ht, rfl⟩ := List.mem_map.mp hw
        by_cases hc : t.hashKey = u.hashKey
        · rw [if_pos hc]
          exact Or.inl ⟨t, ht, (hmk.trans hc.symm).symm ▸ rfl⟩
        · rw [if_neg hc]
          exact Or.inl ⟨t, ht, rfl⟩
      · rintro (⟨w, hw, rfl⟩ | rfl)
        · by_cases hc : w.hashKey = u.hashKey
          · refine ⟨e.addVariants u.getVariants, ?_, hmk.trans hc.symm⟩
            exact List.mem_map.mpr ⟨w, hw, by rw [if_pos hc]⟩
          · exact ⟨w, List.mem_map.mpr ⟨w, hw, by rw [if_neg hc]⟩, rfl⟩
        · refine ⟨e.addVariants u.getVariants, ?_, hmk⟩
          exact List.mem_map.mpr ⟨e, heMem, by rw [if_pos heKey]⟩
    · intro k vk
      rw [htu]
      constructor
      · rintro ⟨w, hw, hk, hvk⟩
        obtain ⟨t, ht, rfl⟩ := List.mem_map.mp hw
        by_cases hc : t.hashKey = u.hashKey
        · rw [if_pos hc] at hk hvk
          rcases (mem_variantKeys_addVariants_iff e u.getVariants vk).mp hvk with h2 | h2
          · exact Or.inl ⟨e, heMem, heKey.trans (hmk.symm.trans hk), h2⟩
          · obtain ⟨v, hv, rfl⟩ := h2
            exact Or.inr ⟨hmk.symm.trans hk, List.mem_map_of_mem _ hv⟩
        · rw [if_neg hc] at hk hvk
          exact Or.inl ⟨t, ht, hk, hvk⟩
      · rintro (⟨w, hw, hk, hvk⟩ | ⟨hk, hvk⟩)
        · by_cases hc : w.hashKey = u.hashKey
          · have hwe : w = e := hinj w hw e heMem (hc.trans heKey.symm)
            refine ⟨e.addVariants u.getVariants,
              List.mem_map.mpr ⟨e, heMem, by rw [if_pos heKey]⟩,
              hmk.trans (hc.symm.trans hk), ?_⟩
            exact variantKeys_mono_addVariants e u.getVariants (hwe ▸ hvk)
          · exact ⟨w, List.mem_map.mpr ⟨w, hw, by rw [if_neg hc]⟩, hk, hvk⟩
        · refine ⟨e.addVariants u.getVariants,
            List.mem_map.mpr ⟨e, heMem, by rw [if_pos heKey]⟩, hmk.trans hk, ?_⟩
          rw [mem_variantKeys_addVariants_iff]
          obtain ⟨v, hv, rfl⟩ := List.mem_map.mp hvk
          exact Or.inr ⟨v, hv, rfl⟩
    · intro k v
      rw [htu]
      rintro ⟨w, hw, hk, hv⟩
      obtain ⟨t, ht, rfl⟩ := List.mem_map.mp hw
      by_cases hc : t.hashKey = u.hashKey
      · rw [if_pos hc] at hk hv
        rcases mem_variants_addVariants hv with h2 | h2
        · exact Or.inl ⟨e, heMem, heKey.trans (hmk.symm.trans hk), h2⟩
        · exact Or.inr ⟨hmk.symm.trans hk, h2⟩
      · rw [if_neg hc] at hk hv
        exact Or.inl ⟨t, ht, hk, hv⟩

lemma addTranslationUnits_char (L : List TranslationUnit) :
    ∀ (d0 : TMX), Inv d0 →
      Inv (d0.addTranslationUnits L) ∧
      (∀ k, (∃ w ∈ (d0.addTranslationUnits L).tu, w.hashKey = k) ↔
        ((∃ w ∈ d0.tu, w.hashKey = k) ∨ (∃ w ∈ L, w.hashKey = k))) ∧
      (∀ x ∈ (d0.addTranslationUnits L).tu, ∀ vk,
        vk ∈ x.variantKeys ↔
          ((∃ w ∈ d0.tu, w.hashKey = x.hashKey ∧ vk ∈ w.variantKeys) ∨
            (∃ w ∈ L, w.hashKey = x.hashKey ∧ vk ∈ w.variantKeys))) ∧
      (∀ x ∈ (d0.addTranslationUnits L).tu, ∀ v ∈ x.variants,
        ((∃ w ∈ d0.tu, w.hashKey = x.hashKey ∧ v ∈ w.variants) ∨
          (∃ w ∈ L, w.hashKey = x.hashKey ∧ v ∈ w.variants))) := by
  induction L with
  | nil =>
    intro d0 hI
    have hinj : ∀ x ∈ d0.tu, ∀ y ∈ d0.tu, x.hashKey = y.hashKey → x = y :=
      fun x hx y hy hk => List.inj_on_of_nodup_map hI.2 hx hy hk
    refine ⟨hI, ?_, ?_, ?_⟩
    · intro k
      simp only [List.not_mem_nil, false_and, exists_false, or_false]
      exact Iff.rfl
    · intro x hx vk
      simp only [List.not_mem_nil, false_and, exists_false, or_false]
      constructor
      · intro hvk
        exact ⟨x, hx, rfl, hvk⟩
      · rintro ⟨w, hw, hk, hvk⟩
        obtain rfl := hinj w hw x hx hk
        exact hvk
    · intro x hx v hv
      simp only [List.not_mem_nil, false_and, exists_false, or_false]
      exact ⟨x, hx, rfl, hv⟩
  | cons u L ih =>
    intro d0 hI
    have hI1 := inv_addTranslationUnit u hI
    obtain ⟨hInv, hP1, hP2, hP3⟩ := ih (d0.addTranslationUnit u) hI1
    obtain ⟨hc1, hc2, hc3⟩ := addTranslationUnit_char d0 u hI
    have hfold : d0.addTranslationUnits (u :: L) =
        (d0.addTranslationUnit u).addTranslationUnits L := rfl
    rw [hfold]
    refine ⟨hInv, ?_, ?_, ?_⟩
    · intro k
      rw [hP1 k]
      constructor
      · rintro (h1 | h2)
        · rcases (hc1 k).mp h1 with h3 | h3
          · exact Or.inl h3
          · exact Or.inr ⟨u, List.mem_cons_self _ _, h3⟩
        · obtain ⟨w, hw, rfl⟩ := h2
          exact Or.inr ⟨w, List.mem_cons_of_mem _ hw, rfl⟩
      · rintro (h1 | ⟨w, hw, rfl⟩)
        · exact Or.inl ((hc1 _).mpr (Or.inl h1))
        · rcases List.mem_cons.mp hw with rfl | hw
          · exact Or.inl ((hc1 _).mpr (Or.inr rfl))
          · exact Or.inr ⟨w, hw, rfl⟩
    · intro x hx vk
      rw [hP2 x hx vk]
      constructor
      · rintro (h1 | h2)
        · rcases (hc2 x.hashKey vk).mp h1 with h3 | h3
          · exact Or.inl h3
          · exact Or.inr ⟨u, List.mem_cons_self _ _, h3.1, h3.2⟩
        · obtain ⟨w, hw, hk, hvk⟩ := h2
          exact Or.inr ⟨w, List.mem_cons_of_mem _ hw, hk, hvk⟩
      · rintro (h1 | ⟨w, hw, hk, hvk⟩)
        · exact Or.inl ((hc2 _ _).mpr (Or.inl h1))
        · rcases List.mem_cons.mp hw with rfl | hw2
          · exact Or.inl ((hc2 _ _).mpr (Or.inr ⟨hk, hvk⟩))
          · exact Or.inr ⟨w, hw2, hk, hvk⟩
    · intro x hx v hv
      rcases hP3 x hx v hv with h1 | h2
      · rcases hc3 x.hashKey v h1 with h3 | h3
        · exact Or.inl h3
        · exact Or.inr ⟨u, List.mem_cons_self _ _, h3.1, h3.2⟩
      · obtain ⟨w, hw, hk, hv2⟩ := h2
        exact Or.inr ⟨w, List.mem_cons_of_mem _ hw, hk, hv2⟩

lemma init_units (o : TmxOptions) : (TMX.init o).tu = [] ∧ (TMX.init o).tuhash = [] := by
  unfold TMX.init
  rcases truthy o.sourceLocale with _ | s <;>
    rcases o.version with _ | v <;>
    rcases o.segmentation with _ | sg <;>
    rcases truthy o.creationtool with _ | ct <;>
    rcases truthy o.creationtoolversion with _ | cv <;>
    first
      | exact ⟨rfl, rfl⟩
      | (constructor <;> (dsimp only; split <;> rfl))

lemma inv_init (o : TmxOptions) : Inv (TMX.init o) := by
  constructor
  · rw [(init_units o).1, (init_units o).2]
    rfl
  · rw [(init_units o).1]
    exact List.nodup_nil

lemma merge_body_eq :
    (fun (acc2 : TMX) (tu : TranslationUnit) =>
      match assocLookup acc2.tuhash tu.hashKey with
      | some mergeTu => acc2.updateUnit tu.hashKey (TMX.mergeVariants mergeTu tu)
      | none => acc2.addTranslationUnit tu) = TMX.addTranslationUnit := by
  funext acc tu
  rcases h : assocLookup acc.tuhash tu.hashKey with _ | e
  · rfl
  · dsimp only
    rw [mergeVariants_eq_addVariants, ← addTranslationUnit_of_lookup_some h]

lemma foldl_tu_flatten (tmxs : List TMX) :
    ∀ (acc : TMX),
      tmxs.foldl (fun acc tmx => tmx.tu.foldl TMX.addTranslationUnit acc) acc =
        ((tmxs.map TMX.tu).flatten).foldl TMX.addTranslationUnit acc := by
  induction tmxs with
  | nil => intro acc; rfl
  | cons t ts ih =>
    intro acc
    rw [List.map_cons, List.flatten_cons, List.foldl_append]
    exact ih (t.tu.foldl TMX.addTranslationUnit acc)

lemma merge_eq (d : TMX) (tmxs : List TMX) (hne : tmxs ≠ []) :
    d.merge tmxs = TMX.addTranslationUnits (TMX.init (mergeDiffOptions d))
      (d.tu ++ (tmxs.map TMX.tu).flatten) := by
  unfold TMX.merge
  rw [if_neg (by simpa [List.isEmpty_iff] using hne)]
  rw [merge_body_eq]
  show tmxs.foldl _ (TMX.addTranslationUnits _ d.tu) = _
  unfold TMX.addTranslationUnits
  rw [foldl_tu_flatten, List.foldl_append]

/-- C5: `merge(others)` returns `this` unchanged when `others` is empty;
otherwise the merged document's unit keys are exactly the unit keys
occurring across all inputs, each merged unit's variant-key set is the
union of the variant-key sets of the equal-keyed input units, and every
variant of a merged unit is the (first-seen, never overwritten) variant
of some equal-keyed input unit. -/
theorem c5_merge_union (d : TMX) (tmxs : List TMX) :
    d.merge [] = d ∧
    (tmxs ≠ [] →
      (∀ k, (∃ w ∈ (d.merge tmxs).tu, w.hashKey = k) ↔
        (∃ w ∈ d.tu ++ (tmxs.map TMX.tu).flatten, w.hashKey = k)) ∧
      (∀ x ∈ (d.merge tmxs).tu, ∀ vk, vk ∈ x.variantKeys ↔
        (∃ w ∈ d.tu ++ (tmxs.map TMX.tu).flatten,
          w.hashKey = x.hashKey ∧ vk ∈ w.variantKeys)) ∧
      (∀ x ∈ (d.merge tmxs).tu, ∀ v ∈ x.variants,
        ∃ w ∈ d.tu ++ (tmxs.map TMX.tu).flatten,
          w.hashKey = x.hashKey ∧ v ∈ w.variants)) := by
  constructor
  · rfl
  · intro hne
    rw [merge_eq d tmxs hne]
    obtain ⟨hInv, hP1, hP2, hP3⟩ :=
      addTranslationUnits_char (d.tu ++ (tmxs.map TMX.tu).flatten)
        (TMX.init (mergeDiffOptions d)) (inv_init _)
    have hempty := (init_units (mergeDiffOptions d)).1
    refine ⟨?_, ?_, ?_⟩
    · intro k
      have h := hP1 k
      rw [hempty] at h
      simpa using h
    · intro x hx vk
      have h := hP2 x hx vk
      rw [hempty] at h
      simpa using h
    · intro x hx v hv
      have h := hP3 x hx v hv
      rw [hempty] at h
      simpa using h

/-- Witness for C5: merging two concrete documents yields a unit under
the first document's unit key. -/
theorem c5_merge_union_witness :
    ∃ w ∈ (TMX.merge exDocGood [exDocC7]).tu, w.hashKey = exUnitGood.hashKey := by
  have h := (c5_merge_union exDocGood [exDocC7]).2 (by decide)
  exact (h.1 exUnitGood.hashKey).mpr (by decide)

lemma hashKey_diffUnit (tu : TranslationUnit) (vd : List TranslationVariant) :
    (diffUnit tu vd).hashKey = tu.hashKey := by
  unfold diffUnit
  rw [hashKey_addVariants, hashKey_addVariant]
  rfl

lemma diffStep_key {d : TMX} {tu x : TranslationUnit} (h : diffStep d tu = some x) :
    x.hashKey = tu.hashKey := by
  unfold diffStep at h
  rcases hl : assocLookup d.tuhash tu.hashKey with _ | thistu
  · rw [hl] at h
    exact (Option.some.inj h).symm ▸ rfl
  · rw [hl] at h
    dsimp only at h
    split at h
    · cases h
    · rw [← Option.some.inj h, hashKey_diffUnit]

lemma assocLookup_pairing {L : List TranslationUnit} {w : TranslationUnit} (hw : w ∈ L)
    (hN : (L.map TranslationUnit.hashKey).Nodup) :
    assocLookup (L.map (fun u => (u.hashKey, u))) w.hashKey = some w := by
  induction L with
  | nil => cases hw
  | cons t ts ih =>
    rw [List.map_cons, assocLookup_cons]
    rw [List.map_cons, List.nodup_cons] at hN
    rcases List.mem_cons.mp hw with rfl | hw2
    · rw [if_pos rfl]
    · have hne : (t.hashKey, t).1 ≠ w.hashKey := by
        intro hk
        have hk2 : t.hashKey = w.hashKey := hk
        exact hN.1 (hk2 ▸ List.mem_map_of_mem _ hw2)
      rw [if_neg hne]
      exact ih hw2 hN.2

lemma inv_lookup_of_mem {d : TMX} {w : TranslationUnit} (hI : Inv d) (hw : w ∈ d.tu) :
    assocLookup d.tuhash w.hashKey = some w := by
  rw [hI.1]
  exact assocLookup_pairing hw hI.2

lemma diff_fold (d : TMX) (L : List TranslationUnit) :
    ∀ (acc : TMX), Inv acc →
      (∀ t ∈ L, ∀ w ∈ acc.tu, w.hashKey ≠ t.hashKey) →
      (L.map TranslationUnit.hashKey).Nodup →
      (L.foldl (fun acc tu =>
        match assocLookup d.tuhash tu.hashKey with
        | some thistu =>
          let variantdiff := TMX.variantDiff thistu tu
          if variantdiff.isEmpty then acc
          else acc.addTranslationUnit (diffUnit tu variantdiff)
        | none => acc.addTranslationUnit tu) acc).tu =
      acc.tu ++ L.filterMap (diffStep d) := by
  induction L with
  | nil =>
    intro acc _ _ _
    rw [List.filterMap_nil, List.append_nil]
    rfl
  | cons tu L ih =>
    intro acc hI hfresh hN
    rw [List.map_cons, List.nodup_cons] at hN
    have hlookupAcc : assocLookup acc.tuhash tu.hashKey = none := by
      rw [assocLookup_eq_none_iff]
      intro p hp
      rw [hI.1] at hp
      obtain ⟨t, ht, rfl⟩ := List.mem_map.mp hp
      exact hfresh tu (List.mem_cons_self _ _) t ht
    have hfreshKey : ∀ (x : TranslationUnit), x.hashKey = tu.hashKey →
        ∀ t ∈ L, ∀ w ∈ (acc.addTranslationUnit x).tu, w.hashKey ≠ t.hashKey := by
      intro x hx t ht w hw
      have hx2 : assocLookup acc.tuhash x.hashKey = none := hx ▸ hlookupAcc
      rw [addTranslationUnit_of_lookup_none hx2] at hw
      rcases List.mem_append.mp hw with hw | hw
      · exact hfresh t (List.mem_cons_of_mem _ ht) w hw
      · obtain rfl := List.mem_singleton.mp hw
        rw [hx]
        intro hk
        exact hN.1 (hk ▸ List.mem_map_of_mem _ ht)
    have hpush : ∀ (x : TranslationUnit), x.hashKey = tu.hashKey →
        (acc.addTranslationUnit x).tu = acc.tu ++ [x] := by
      intro x hx
      rw [addTranslationUnit_of_lookup_none (hx ▸ hlookupAcc)]
    show (L.foldl _ (match assocLookup d.tuhash tu.hashKey with
      | some thistu =>
        let variantdiff := TMX.variantDiff thistu tu
        if variantdiff.isEmpty then acc
        else acc.addTranslationUnit (diffUnit tu variantdiff)
      | none => acc.addTranslationUnit tu)).tu = _
    rcases hl : assocLookup d.tuhash tu.hashKey with _ | thistu
    · rw [List.filterMap_cons]
      have hstep : diffStep d tu = some tu := by
        unfold diffStep
        rw [hl]
      rw [hstep]
      rw [ih (acc.addTranslationUnit tu) (inv_addTranslationUnit tu hI)
        (hfreshKey tu rfl) hN.2, hpush tu rfl]
      rw [List.append_assoc]
      rfl
    · dsimp only
      by_cases hvd : (TMX.variantDiff thistu tu).isEmpty
      · rw [if_pos hvd, List.filterMap_cons]
        have hstep : diffStep d tu = none := by
          unfold diffStep
          rw [hl]
          dsimp only
          rw [if_pos hvd]
        rw [hstep]
        exact ih acc hI (fun t ht w hw => hfresh t (List.mem_cons_of_mem _ ht) w hw) hN.2
      · rw [if_neg hvd, List.filterMap_cons]
        have hstep : diffStep d tu = some (diffUnit tu (TMX.variantDiff thistu tu)) := by
          unfold diffStep
          rw [hl]
          dsimp only
          rw [if_neg hvd]
        rw [hstep]
        rw [ih (acc.addTranslationUnit (diffUnit tu (TMX.variantDiff thistu tu)))
          (inv_addTranslationUnit _ hI)
          (hfreshKey _ (hashKey_diffUnit tu _)) hN.2,
          hpush _ (hashKey_diffUnit tu _)]
        rw [List.append_assoc]
        rfl

lemma diff_tu_eq (d other : TMX)
    (hO : (other.tu.map TranslationUnit.hashKey).Nodup) :
    (d.diff other).tu = other.tu.filterMap (diffStep d) := by
  unfold TMX.diff
  rw [diff_fold d other.tu (TMX.init (mergeDiffOptions d)) (inv_init _)
    (by
      intro t _ w hw
      rw [(init_units (mergeDiffOptions d)).1] at hw
      cases hw) hO,
    (init_units (mergeDiffOptions d)).1, List.nil_append]

lemma addVariant_fields (u : TranslationUnit) (v : TranslationVariant) :
    (u.addVariant v).sourceLocale = u.sourceLocale ∧ (u.addVariant v).source = u.source ∧
      (u.addVariant v).target = u.target ∧ (u.addVariant v).targetLocale = u.targetLocale := by
  unfold TranslationUnit.addVariant
  split
  · exact ⟨rfl, rfl, rfl, rfl⟩
  · exact ⟨rfl, rfl, rfl, rfl⟩

lemma addVariants_fields (u : TranslationUnit) (vs : List TranslationVariant) :
    (u.addVariants vs).sourceLocale = u.sourceLocale ∧ (u.addVariants vs).source = u.source ∧
      (u.addVariants vs).target = u.target ∧
      (u.addVariants vs).targetLocale = u.targetLocale := by
  induction vs generalizing u with
  | nil => exact ⟨rfl, rfl, rfl, rfl⟩
  | cons v vs ih =>
    obtain ⟨h1, h2, h3, h4⟩ := ih (u.addVariant v)
    obtain ⟨g1, g2, g3, g4⟩ := addVariant_fields u v
    exact ⟨h1.trans g1, h2.trans g2, h3.trans g3, h4.trans g4⟩

lemma diffUnit_fields (tu : TranslationUnit) (vd : List TranslationVariant) :
    (diffUnit tu vd).sourceLocale = tu.sourceLocale ∧ (diffUnit tu vd).source = tu.source ∧
      (diffUnit tu vd).target = tu.target ∧ (diffUnit tu vd).targetLocale = tu.targetLocale := by
  unfold diffUnit
  dsimp only
  refine ⟨?_, ?_, ?_, ?_⟩
  · rw [(addVariants_fields _ _).1, (addVariant_fields _ _).1]
  · rw [(addVariants_fields _ _).2.1, (addVariant_fields _ _).2.1]
  · rw [(addVariants_fields _ _).2.2.1, (addVariant_fields _ _).2.2.1]
  · rw [(addVariants_fields _ _).2.2.2, (addVariant_fields _ _).2.2.2]

lemma mem_key_variantDiff (w u : TranslationUnit) (vk : String × Option String) :
    (∃ v ∈ TMX.variantDiff w u, v.hashKey = vk) ↔
      (vk ∈ u.variantKeys ∧ ¬ vk ∈ w.variantKeys) := by
  unfold TMX.variantDiff
  dsimp only
  constructor
  · rintro ⟨v, hv, rfl⟩
    obtain ⟨h1, h2⟩ := List.mem_filter.mp hv
    refine ⟨List.mem_map_of_mem _ h1, ?_⟩
    simp only [decide_eq_true_eq] at h2
    exact h2
  · rintro ⟨h1, h2⟩
    obtain ⟨v, hv, rfl⟩ := List.mem_map.mp h1
    refine ⟨v, List.mem_filter.mpr ⟨hv, ?_⟩, rfl⟩
    simp only [decide_eq_true_eq]
    exact h2

lemma variantKeys_diffUnit (tu : TranslationUnit) (vd : List TranslationVariant)
    (vk : String × Option String) :
    vk ∈ (diffUnit tu vd).variantKeys ↔
      (vk = (tu.sourceLocale, tu.source) ∨ ∃ v ∈ vd, v.hashKey = vk) := by
  unfold diffUnit
  dsimp only
  rw [mem_variantKeys_addVariants_iff]
  constructor
  · rintro (h | h)
    · exact Or.inl (List.mem_singleton.mp h)
    · exact Or.inr h
  · rintro (h | h)
    · exact Or.inl (List.mem_singleton.mpr h)
    · exact Or.inr h

/-- C6: `this.diff(other)` contains exactly: every unit of `other` whose
key is absent from `this` (copied wholesale), plus, for every key present
in both with a non-empty variant diff, one fresh unit carrying `other`'s
source/target fields, a source variant, and exactly the variants of
`other`'s unit whose keys are absent from `this`'s unit; keys with an
empty diff are omitted, and nothing outside `other`'s keys (no deletion)
ever appears. -/
theorem c6_diff_exact (d other : TMX) (hI : Inv d)
    (hO : (other.tu.map TranslationUnit.hashKey).Nodup) :
    (∀ u ∈ other.tu, (∀ w ∈ d.tu, w.hashKey ≠ u.hashKey) → u ∈ (d.diff other).tu) ∧
    (∀ u ∈ other.tu, ∀ w ∈ d.tu, w.hashKey = u.hashKey →
      TMX.variantDiff w u ≠ [] →
      ∃ x ∈ (d.diff other).tu, x.hashKey = u.hashKey ∧
        x.sourceLocale = u.sourceLocale ∧ x.source = u.source ∧
        x.target = u.target ∧ x.targetLocale = u.targetLocale ∧
        (∀ vk, vk ∈ x.variantKeys ↔
          (vk = (u.sourceLocale, u.source) ∨
            (vk ∈ u.variantKeys ∧ ¬ vk ∈ w.variantKeys)))) ∧
    (∀ u ∈ other.tu, ∀ w ∈ d.tu, w.hashKey = u.hashKey →
      TMX.variantDiff w u = [] →
      ∀ x ∈ (d.diff other).tu, x.hashKey ≠ u.hashKey) ∧
    (∀ x ∈ (d.diff other).tu, ∃ u ∈ other.tu, x.hashKey = u.hashKey) := by
  rw [diff_tu_eq d other hO]
  refine ⟨?_, ?_, ?_, ?_⟩
  · intro u hu hfresh
    have hl : assocLookup d.tuhash u.hashKey = none := by
      rcases hl2 : assocLookup d.tuhash u.hashKey with _ | e
      · rfl
      · obtain ⟨heMem, heKey⟩ := inv_lookup_some hI hl2
        exact absurd heKey (hfresh e heMem)
    have hstep : diffStep d u = some u := by
      unfold diffStep
      rw [hl]
    exact List.mem_filterMap.mpr ⟨u, hu, hstep⟩
  · intro u hu w hw hk hvd
    have hl : assocLookup d.tuhash u.hashKey = some w := by
      have := inv_lookup_of_mem hI hw
      rw [hk] at this
      exact this
    have hvd2 : (TMX.variantDiff w u).isEmpty = false := by
      rcases hvde : TMX.variantDiff w u with _ | ⟨v, vs⟩
      · exact absurd hvde hvd
      · rfl
    have hstep : diffStep d u = some (diffUnit u (TMX.variantDiff w u)) := by
      unfold diffStep
      rw [hl]
      dsimp only
      rw [hvd2]
      rfl
    obtain ⟨f1, f2, f3, f4⟩ := diffUnit_fields u (TMX.variantDiff w u)
    refine ⟨diffUnit u (TMX.variantDiff w u), List.mem_filterMap.mpr ⟨u, hu, hstep⟩,
      hashKey_diffUnit u _, f1, f2, f3, f4, ?_⟩
    intro vk
    rw [variantKeys_diffUnit, mem_key_variantDiff]
  · intro u hu w hw hk hvd x hx hxk
    obtain ⟨t, ht, hstep⟩ := List.mem_filterMap.mp hx
    have htk : t.hashKey = u.hashKey := (diffStep_key hstep).symm.trans hxk
    obtain rfl : t = u := List.inj_on_of_nodup_map hO ht hu htk
    have hl : assocLookup d.tuhash t.hashKey = some w := by
      have := inv_lookup_of_mem hI hw
      rw [hk] at this
      exact this
    unfold diffStep at hstep
    rw [hl] at hstep
    dsimp only at hstep
    rw [hvd] at hstep
    cases hstep
  · intro x hx
    obtain ⟨t, ht, hstep⟩ := List.mem_filterMap.mp hx
    exact ⟨t, ht, diffStep_key hstep⟩

/-- Witness for C6 at the documents of spec example 4: `A.diff(B)` holds
a unit under `B`'s unit key. -/
theorem c6_diff_exact_witness :
    ∃ x ∈ (TMX.diff exDiffDocA exDiffDocB).tu, x.hashKey = exUnitB.hashKey := by
  have h := c6_diff_exact exDiffDocA exDiffDocB (by decide) (by decide)
  obtain ⟨x, hx, hk, _⟩ :=
    h.2.1 exUnitB (by decide) exUnitA (by decide) (by decide) (by decide)
  exact ⟨x, hx, hk⟩

lemma truthy_some {x : Option String} {v : String} (h : truthy x = some v) :
    x = some v ∧ v ≠ "" := by
  unfold truthy at h
  rcases x with _ | s
  · cases h
  · dsimp only at h
    by_cases hs : s = ""
    · rw [if_pos hs] at h
      cases h
    · rw [if_neg hs] at h
      obtain rfl := Option.some.inj h
      exact ⟨rfl, hs⟩

lemma truthy_of_ne {s : String} (h : s ≠ "") : truthy (some s) = some s := by
  unfold truthy
  dsimp only
  rw [if_neg h]

lemma setAssoc_lookup_self {α β : Type} [DecidableEq α] (l : List (α × β)) (k : α) (v : β) :
    assocLookup (setAssoc l k v) k = some v := by
  unfold setAssoc
  by_cases h : (assocLookup l k).isSome
  · rw [if_pos h]
    rw [assocLookup_map_ite]
    rcases hx : assocLookup l k with _ | x
    · rw [hx] at h
      cases h
    · rfl
  · rw [if_neg h]
    have hn : assocLookup l k = none := by
      rcases hx : assocLookup l k with _ | x
      · rfl
      · rw [hx] at h
        exact absurd rfl h
    rw [assocLookup_append_none _ hn, assocLookup_cons, if_pos rfl]

lemma setAssoc_lookup_ne {α β : Type} [DecidableEq α] (l : List (α × β)) {k k' : α} (v : β)
    (h : k' ≠ k) : assocLookup (setAssoc l k v) k' = assocLookup l k' := by
  unfold setAssoc
  by_cases hs : (assocLookup l k).isSome
  · rw [if_pos hs]
    exact assocLookup_map_ite_ne l v h
  · rw [if_neg hs]
    rcases hx : assocLookup l k' with _ | x
    · rw [assocLookup_append_none _ hx, assocLookup_cons,
        if_neg (fun hk => h hk.symm)]
      rfl
    · exact assocLookup_append_some _ hx

lemma addProperties_fields (u : TranslationUnit) (ps : List (String × Option String)) :
    (u.addProperties ps).sourceLocale = u.sourceLocale ∧
      (u.addProperties ps).source = u.source ∧
      (u.addProperties ps).datatype = u.datatype ∧
      (u.addProperties ps).variants = u.variants := ⟨rfl, rfl, rfl, rfl⟩

lemma addTranslationUnit_config (d : TMX) (u : TranslationUnit) :
    (d.addTranslationUnit u).properties = d.properties ∧
      (d.addTranslationUnit u).sourceLocale = d.sourceLocale ∧
      (d.addTranslationUnit u).adminLocale = d.adminLocale := by
  rcases h : assocLookup d.tuhash u.hashKey with _ | e
  · rw [addTranslationUnit_of_lookup_none h]
    exact ⟨rfl, rfl, rfl⟩
  · rw [addTranslationUnit_of_lookup_some h]
    exact ⟨rfl, rfl, rfl⟩

lemma foldl_attrs_lookup (attrs : Attrs) (L : List String) :
    ∀ (d0 : TMX) (k : String),
      (truthy (assocLookup attrs k).join = none ∨
        (assocLookup attrs k).join = assocLookup d0.properties k) →
      (assocLookup ((L.foldl (fun acc a =>
        match truthy (assocLookup attrs a).join with
        | some v => { acc with properties := setAssoc acc.properties a v }
        | none => acc) d0)).properties k = assocLookup d0.properties k) := by
  induction L with
  | nil => exact fun d0 k _ => rfl
  | cons a L ih =>
    intro d0 k hk
    show assocLookup ((L.foldl _ (match truthy (assocLookup attrs a).join with
      | some v => { d0 with properties := setAssoc d0.properties a v }
      | none => d0))).properties k = _
    rcases ha : truthy (assocLookup attrs a).join with _ | v
    · exact ih d0 k hk
    · by_cases hka : k = a
      · subst hka
        rcases hk with hk | hk
        · rw [ha] at hk
          cases hk
        · obtain ⟨hav, _⟩ := truthy_some ha
          have hset : assocLookup (setAssoc d0.properties k v) k = some v :=
            setAssoc_lookup_self _ _ _
          have hd0 : assocLookup d0.properties k = some v := by
            rw [← hk, hav]
          have := ih { d0 with properties := setAssoc d0.properties k v } k
            (Or.inr (by
              show (assocLookup attrs k).join = assocLookup (setAssoc d0.properties k v) k
              rw [hset, hav]))
          rw [this]
          show assocLookup (setAssoc d0.properties k v) k = assocLookup d0.properties k
          rw [hset, hd0]
      · have hset : assocLookup (setAssoc d0.properties a v) k = assocLookup d0.properties k :=
          setAssoc_lookup_ne _ _ hka
        have := ih { d0 with properties := setAssoc d0.properties a v } k
          (by
            rcases hk with hk | hk
            · exact Or.inl hk
            · refine Or.inr ?_
              show (assocLookup attrs k).join = assocLookup (setAssoc d0.properties a v) k
              rw [hset]
              exact hk)
        rw [this]
        exact hset

lemma addVariant_of_not_mem (u : TranslationUnit) (v : TranslationVariant)
    (h : ¬ v.hashKey ∈ u.variantKeys) :
    u.addVariant v = { u with variants := u.variants ++ [v] } := by
  unfold TranslationUnit.addVariant
  rw [if_neg]
  intro hany
  rw [List.any_eq_true] at hany
  obtain ⟨w, hw, hk⟩ := hany
  simp only [decide_eq_true_eq] at hk
  exact h (hk ▸ List.mem_map_of_mem _ hw)

lemma parseVariant_serialized (tu0 : TranslationUnit) (log0 : List LogEvent)
    (v : TranslationVariant) {s : String}
    (hloc : v.locale ≠ "") (hs : v.string = some s) (hs0 : s ≠ "")
    (hfresh : ¬ v.hashKey ∈ tu0.variantKeys) :
    parseVariant (tu0, log0) (serializeTranslationVariant v) =
      (if v.locale = tu0.sourceLocale then
        { tu0 with
          variants := tu0.variants ++ [v],
          source := v.string,
          sourceLocale := v.locale }
      else { tu0 with variants := tu0.variants ++ [v] }, log0) := by
  have e1 : truthy (assocLookup ([("xml:lang", some v.locale)] : Attrs) "lang").join =
      none := rfl
  have e2 : (assocLookup ([("xml:lang", some v.locale)] : Attrs) "xml:lang").join =
      some v.locale := rfl
  have e0 : truthy (none : Option String) = none := rfl
  unfold parseVariant serializeTranslationVariant
  dsimp only [Option.bind]
  rw [e1]
  dsimp only
  rw [e2, truthy_of_ne hloc, hs, truthy_of_ne hs0, e0]
  dsimp only
  rw [← hs]
  have hv : ({ locale := v.locale, string := v.string } : TranslationVariant) = v := rfl
  rw [hv, addVariant_of_not_mem tu0 v hfresh]

lemma getLast?_cons_eq (v : α) (l : List α) :
    (v :: l).getLast? = some ((l.getLast?).getD v) := by
  rcases l with _ | ⟨a, l'⟩
  · rfl
  · rw [List.getLast?_cons_cons]
    rcases h : (a :: l').getLast? with _ | w
    · exact absurd h (by simp [List.getLast?_eq_none_iff])
    · rfl

lemma lastSourceString_nil (srcLoc : String) (dflt : Option String) :
    lastSourceString srcLoc [] dflt = dflt := rfl

lemma getD_string (o : Option TranslationVariant) (v : TranslationVariant) :
    (o.getD v).string = (o.map TranslationVariant.string).getD v.string := by
  rcases o with _ | w
  · rfl
  · rfl

lemma lastSourceString_cons (srcLoc : String) (v : TranslationVariant)
    (vs : List TranslationVariant) (dflt : Option String) :
    lastSourceString srcLoc (v :: vs) dflt =
      if v.locale = srcLoc then lastSourceString srcLoc vs v.string
      else lastSourceString srcLoc vs dflt := by
  unfold lastSourceString
  rw [List.filter_cons]
  by_cases hv : v.locale = srcLoc
  · rw [if_pos (by simp [hv]), if_pos hv, getLast?_cons_eq, Option.map_some',
      Option.getD_some, getD_string]
  · rw [if_neg (by simp [hv]), if_neg hv]

lemma tuv_fold (srcLoc : String) (vs : List TranslationVariant)
    (hvs : ∀ v ∈ vs, v.locale ≠ "" ∧ ∃ s, v.string = some s ∧ s ≠ "")
    (hN : (vs.map TranslationVariant.hashKey).Nodup) :
    ∀ (tu0 : TranslationUnit) (log0 : List LogEvent),
      (∀ v ∈ vs, ¬ v.hashKey ∈ tu0.variantKeys) →
      tu0.sourceLocale = srcLoc →
      ((vs.map serializeTranslationVariant).foldl parseVariant (tu0, log0)).1.variants =
          tu0.variants ++ vs ∧
      ((vs.map serializeTranslationVariant).foldl parseVariant (tu0, log0)).1.sourceLocale =
          srcLoc ∧
      ((vs.map serializeTranslationVariant).foldl parseVariant (tu0, log0)).1.datatype =
          tu0.datatype ∧
      ((vs.map serializeTranslationVariant).foldl parseVariant (tu0, log0)).1.source =
        lastSourceString srcLoc vs tu0.source := by
  induction vs with
  | nil =>
    intro tu0 log0 _ hsl
    exact ⟨(List.append_nil _).symm, hsl, rfl, rfl⟩
  | cons v vs ih =>
    intro tu0 log0 hfresh hsl
    obtain ⟨hloc, s, hs, hs0⟩ := hvs v (List.mem_cons_self _ _)
    rw [List.map_cons, List.nodup_cons] at hN
    have hstep := parseVariant_serialized tu0 log0 v hloc hs hs0
      (hfresh v (List.mem_cons_self _ _))
    have hfold : ((v :: vs).map serializeTranslationVariant).foldl parseVariant (tu0, log0) =
        (vs.map serializeTranslationVariant).foldl parseVariant
          (parseVariant (tu0, log0) (serializeTranslationVariant v)) := rfl
    set tu1 : TranslationUnit :=
      if v.locale = tu0.sourceLocale then
        { tu0 with
          variants := tu0.variants ++ [v],
          source := v.string,
          sourceLocale := v.locale }
      else { tu0 with variants := tu0.variants ++ [v] } with htu1
    have h1v : tu1.variants = tu0.variants ++ [v] := by
      rw [htu1]
      split <;> rfl
    have h1sl : tu1.sourceLocale = srcLoc := by
      rw [htu1]
      split
      · next hcond => exact hcond.trans hsl
      · exact hsl
    have h1dt : tu1.datatype = tu0.datatype := by
      rw [htu1]
      split <;> rfl
    have h1src : tu1.source = if v.locale = srcLoc then v.string else tu0.source := by
      rw [htu1, ← hsl]
      split
      · rfl
      · rfl
    have hfresh1 : ∀ w ∈ vs, ¬ w.hashKey ∈ tu1.variantKeys := by
      intro w hw hmem
      unfold TranslationUnit.variantKeys at hmem
      rw [h1v, List.map_append, List.mem_append] at hmem
      rcases hmem with hmem | hmem
      · exact hfresh w (List.mem_cons_of_mem _ hw) hmem
      · rw [List.map_singleton, List.mem_singleton] at hmem
        exact hN.1 (hmem ▸ List.mem_map_of_mem _ hw)
    obtain ⟨ihv, ihsl, ihdt, ihsrc⟩ :=
      ih (fun w hw => hvs w (List.mem_cons_of_mem _ hw)) hN.2 tu1 log0 hfresh1 h1sl
    rw [hfold, hstep]
    refine ⟨?_, ihsl, ihdt.trans h1dt, ?_⟩
    · rw [ihv, h1v, List.append_assoc]
      rfl
    · rw [ihsrc, lastSourceString_cons]
      by_cases hvp : v.locale = srcLoc
      · rw [if_pos hvp, h1src, if_pos hvp]
      · rw [if_neg hvp, h1src, if_neg hvp]

lemma parseUnit_serialized (dacc : TMX) (u : TranslationUnit)
    (hsrc : u.sourceLocale ≠ "")
    (hvar : ∀ v ∈ u.variants, v.locale ≠ "" ∧ ∃ s, v.string = some s ∧ s ≠ "")
    (hN : (u.variantKeys).Nodup) :
    (parseUnit dacc (serializeTranslationUnitBody u)).1.hashKey =
      (u.sourceLocale, lastSourceString u.sourceLocale u.variants none,
        assocLookup dacc.properties "datatype") ∧
    (parseUnit dacc (serializeTranslationUnitBody u)).1.variants = u.variants := by
  have hattrs : (serializeTranslationUnitBody u).attrs =
      some [("srclang", some u.sourceLocale)] := rfl
  have hnote : (serializeTranslationUnitBody u).note = none := rfl
  have htuv : (serializeTranslationUnitBody u).tuv =
      some (u.variants.map serializeTranslationVariant) := rfl
  have hor : (orTruthy (attrValue (serializeTranslationUnitBody u).attrs "srclang")
      (orTruthy (some dacc.sourceLocale) (some dacc.adminLocale))).getD "en" =
      u.sourceLocale := by
    have ha : attrValue (serializeTranslationUnitBody u).attrs "srclang" =
        some u.sourceLocale := rfl
    rw [ha]
    unfold orTruthy
    rw [truthy_of_ne hsrc]
    rfl
  unfold parseUnit
  rw [hor, hnote, htuv]
  dsimp only
  rcases hprop : (serializeTranslationUnitBody u).prop with _ | propList
  · dsimp only
    obtain ⟨cv, csl, cdt, csrc⟩ := tuv_fold u.sourceLocale u.variants hvar hN
      { sourceLocale := u.sourceLocale,
        datatype := assocLookup dacc.properties "datatype" } []
      (fun v _ hmem => absurd hmem (List.not_mem_nil _)) rfl
    refine ⟨?_, ?_⟩
    · show (_, _, _) = (_, _, _)
      rw [csl, cdt, csrc]
    · rw [cv]
      rfl
  · dsimp only
    obtain ⟨cv, csl, cdt, csrc⟩ := tuv_fold u.sourceLocale u.variants hvar hN
      (TranslationUnit.addProperties
        { sourceLocale := u.sourceLocale,
          datatype := assocLookup dacc.properties "datatype" }
        (propList.foldl (fun acc p =>
          match p.attrs with
          | some attrs =>
            (setAssoc acc.1 (((assocLookup attrs "type").join).getD "undefined") p.text,
              acc.2)
          | none => (acc.1, acc.2 ++ [LogEvent.warnPropNoType])) ([], [])).1)
      (propList.foldl (fun acc p =>
        match p.attrs with
        | some attrs =>
          (setAssoc acc.1 (((assocLookup attrs "type").join).getD "undefined") p.text,
            acc.2)
        | none => (acc.1, acc.2 ++ [LogEvent.warnPropNoType])) ([], [])).2
      (fun v _ hmem => absurd hmem (List.not_mem_nil _)) rfl
    refine ⟨?_, ?_⟩
    · show (_, _, _) = (_, _, _)
      rw [csl, cdt, csrc, (addProperties_fields _ _).2.1,
        (addProperties_fields _ _).2.2.1]
    · rw [cv]
      rfl

lemma parseHeader_props (d1 : TMX) (t : TmxTree) (h : HeaderTree) (attrs : Attrs)
    (ht : t.header = some h) (ha : h.attrs = some attrs) (k : String)
    (hk : truthy (assocLookup attrs k).join = none ∨
      (assocLookup attrs k).join = assocLookup d1.properties k) :
    assocLookup (parseHeader d1 t).properties k = assocLookup d1.properties k := by
  unfold parseHeader
  rw [ht]
  dsimp only
  rw [ha]
  dsimp only
  have hf := foldl_attrs_lookup attrs headerAttrs d1 k hk
  rcases truthy (assocLookup attrs "srclang").join with _ | s <;>
    rcases truthy (assocLookup attrs "adminlang").join with _ | s' <;>
    exact hf

lemma serialize_tmx_version (d : TMX) (t : TmxTree)
    (ht : (TMX.serialize d).tmx = some t) :
    attrValue t.attrs "version" = some (versionString d.version) := by
  have h1 := congrArg (fun o : Option TmxTree =>
    o.map (fun x => attrValue x.attrs "version")) ht
  exact (Option.some.inj h1).symm

lemma serialize_tmx_body (d : TMX) (t : TmxTree)
    (ht : (TMX.serialize d).tmx = some t) :
    t.body = some { tu := some ((d.tu.filter (fun u => u.variants.length > 1)).filterMap
      serializeTranslationUnit) } := by
  have h1 := congrArg (fun o : Option TmxTree => o.map (fun x => x.body)) ht
  exact (Option.some.inj h1).symm

lemma parseHeader_serialize_datatype (d d1 : TMX) (hp : d1.properties = d.properties)
    (t : TmxTree) (ht : (TMX.serialize d).tmx = some t) :
    assocLookup (parseHeader d1 t).properties "datatype" =
      assocLookup d.properties "datatype" := by
  have h1 := congrArg (fun o : Option TmxTree => o.map (fun x => x.header)) ht
  have hh : t.header = some
      { attrs := some (match truthy (assocLookup d.properties "originalFormat") with
          | some s =>
            [("segtype", assocLookup d.properties "segtype"),
             ("creationtool",
               some ((truthy (assocLookup d.properties "creationtool")).getD "loctool")),
             ("creationtoolversion",
               some ((truthy (assocLookup d.properties "creationtoolversion")).getD
                 packageVersion)),
             ("adminlang", some d.adminLocale),
             ("srclang", some d.sourceLocale),
             ("datatype", assocLookup d.properties "datatype")] ++ [("o-tmf", some s)]
          | none =>
            [("segtype", assocLookup d.properties "segtype"),
             ("creationtool",
               some ((truthy (assocLookup d.properties "creationtool")).getD "loctool")),
             ("creationtoolversion",
               some ((truthy (assocLookup d.properties "creationtoolversion")).getD
                 packageVersion)),
             ("adminlang", some d.adminLocale),
             ("srclang", some d.sourceLocale),
             ("datatype", assocLookup d.properties "datatype")]),
        prop := if (d.properties.filter (fun p => ¬ p.1 ∈ headerAttrs)) = [] then none
          else some ((d.properties.filter (fun p => ¬ p.1 ∈ headerAttrs)).map (fun p =>
            { attrs := some [("type", some p.1)], text := some p.2 })) } :=
    (Option.some.inj h1).symm
  refine (parseHeader_props d1 t _ _ hh rfl "datatype" (Or.inr ?_)).trans ?_
  · rcases truthy (assocLookup d.properties "originalFormat") with _ | s
    · rw [hp]
      rfl
    · rw [hp]
      rfl
  · rw [hp]

lemma body_fold (L : List TranslationUnit) :
    ∀ (d0 : TMX) (log : List LogEvent),
      (∀ u ∈ L,
        u.sourceLocale ≠ "" ∧ u.variantKeys.Nodup ∧
        (∀ v ∈ u.variants, v.locale ≠ "" ∧ ∃ s, v.string = some s ∧ s ≠ "") ∧
        u.datatype = assocLookup d0.properties "datatype" ∧
        lastSourceString u.sourceLocale u.variants none = u.source) →
      (L.map TranslationUnit.hashKey).Nodup →
      (∀ u ∈ L, assocLookup d0.tuhash u.hashKey = none) →
      (((L.map serializeTranslationUnitBody).foldl (fun acc ut =>
          let p := parseUnit acc.1 ut
          (acc.1.addTranslationUnit p.1, acc.2 ++ p.2)) (d0, log)).1.tu.map
            (fun x => (x.hashKey, x.variantKeys)) =
        d0.tu.map (fun x => (x.hashKey, x.variantKeys)) ++
          L.map (fun u => (u.hashKey, u.variantKeys))) := by
  induction L with
  | nil =>
    intro d0 log _ _ _
    simp
  | cons u L ih =>
    intro d0 log hU hN hF
    rw [List.map_cons] at hN
    obtain ⟨hnotin, hN'⟩ := List.nodup_cons.mp hN
    rw [List.map_cons, List.foldl_cons]
    obtain ⟨hsrc, hvk, hvar, hdt, hlast⟩ := hU u (List.mem_cons_self _ _)
    obtain ⟨hkey, hvars⟩ := parseUnit_serialized d0 u hsrc hvar hvk
    have hkey' : (parseUnit d0 (serializeTranslationUnitBody u)).1.hashKey = u.hashKey := by
      rw [hkey, hlast, ← hdt]
      rfl
    have hvk' : (parseUnit d0 (serializeTranslationUnitBody u)).1.variantKeys =
        u.variantKeys := by
      unfold TranslationUnit.variantKeys
      rw [hvars]
    have hfresh : assocLookup d0.tuhash
        (parseUnit d0 (serializeTranslationUnitBody u)).1.hashKey = none := by
      rw [hkey']
      exact hF u (List.mem_cons_self _ _)
    dsimp only
    rw [addTranslationUnit_of_lookup_none hfresh]
    refine (ih _ _ ?_ hN' ?_).trans ?_
    · exact fun w hw => hU w (List.mem_cons_of_mem _ hw)
    · intro w hw
      have hne : ¬ u.hashKey = w.hashKey :=
        fun he => hnotin (he ▸ List.mem_map_of_mem _ hw)
      show assocLookup (d0.tuhash ++
        [((parseUnit d0 (serializeTranslationUnitBody u)).1.hashKey,
          (parseUnit d0 (serializeTranslationUnitBody u)).1)]) w.hashKey = none
      rw [assocLookup_append_none _ (hF w (List.mem_cons_of_mem _ hw)),
        assocLookup_cons, hkey', if_neg hne]
      rfl
    · show ((d0.tu ++ [(parseUnit d0 (serializeTranslationUnitBody u)).1]).map
          (fun x => (x.hashKey, x.variantKeys))) ++
          L.map (fun w => (w.hashKey, w.variantKeys)) = _
      rw [List.map_append, List.map_cons, List.append_assoc]
      dsimp only [List.map]
      rw [hkey', hvk']
      rfl

/-- C1 (amended): the round trip `deserialize(serialize(d))` reproduces
each unit's identity key and variant keys (in order) provided — beyond
the spec's stated side condition that every unit has at least two
variants with distinct variant keys — that the document renders its
version as "1.4", unit keys are pairwise distinct, every variant carries
a non-empty locale and a non-empty string, every unit's `datatype` equals
the document's `datatype` property (parse overwrites the per-unit field
with the document-level value), and every unit's `source` equals the
string of its last source-locale variant (parse rebuilds `source` from
the variants).  Without the extra hypotheses the round trip changes unit
keys, so the claim as stated is false (see the counterexample). -/
theorem c1_roundtrip_amended (d : TMX)
    (hver : versionString d.version = "1.4")
    (hnodup : (d.tu.map TranslationUnit.hashKey).Nodup)
    (hunits : ∀ u ∈ d.tu,
      2 ≤ u.variants.length ∧
      u.variantKeys.Nodup ∧
      u.sourceLocale ≠ "" ∧
      (∀ v ∈ u.variants, v.locale ≠ "" ∧ v.string.getD "" ≠ "") ∧
      u.datatype = assocLookup d.properties "datatype" ∧
      lastSourceString u.sourceLocale u.variants none = u.source) :
    (d.deserialize d.serialize).1.tu.map (fun x => (x.hashKey, x.variantKeys)) =
      d.tu.map (fun u => (u.hashKey, u.variantKeys)) := by
  have hT : ∀ u ∈ d.tu, 1 < u.variants.length := by
    intro u hu
    have h2 := (hunits u hu).1
    omega
  have hfilter : d.tu.filter (fun u => u.variants.length > 1) = d.tu :=
    List.filter_eq_self.mpr (fun u hu => decide_eq_true (hT u hu))
  unfold TMX.deserialize
  rcases ht : (TMX.serialize d).tmx with _ | t
  · simp [TMX.serialize] at ht
  · dsimp only
    have hv : attrValue t.attrs "version" = some "1.4" := by
      rw [serialize_tmx_version d t ht, hver]
    rw [if_pos hv]
    dsimp only
    unfold TMX.parse
    rw [serialize_tmx_body d t ht]
    dsimp only
    rw [hfilter, filterMap_serialize d.tu hT]
    refine (body_fold d.tu _ [] ?_ hnodup ?_).trans ?_
    · intro u hu
      obtain ⟨_, hvk, hsrc, hvar, hdt, hlast⟩ := hunits u hu
      refine ⟨hsrc, hvk, ?_, ?_, hlast⟩
      · intro v hv'
        obtain ⟨hl, hg⟩ := hvar v hv'
        refine ⟨hl, ?_⟩
        rcases hs : v.string with _ | s
        · rw [hs] at hg
          exact absurd rfl hg
        · rw [hs] at hg
          exact ⟨s, rfl, hg⟩
      · rw [parseHeader_serialize_datatype d { d with tu := [], tuhash := [] } rfl t ht]
        exact hdt
    · intro u _
      rw [(parseHeader_units _ t).2]
      rfl
    · rw [(parseHeader_units _ t).1]
      rfl

/-- C1 counterexample: `exDocOtherDatatype` satisfies the claim's stated
side condition (its unit has two variants with distinct (locale,string)
keys), yet the round trip does not reproduce its unit identity key:
`parse` overwrites the unit's `datatype` (`"x"`) with the document-level
`datatype` property (`"unknown"`), moving the unit to a different key. -/
theorem c1_roundtrip_counterexample :
    (∀ u ∈ exDocOtherDatatype.tu, 2 ≤ u.variants.length ∧ u.variantKeys.Nodup) ∧
    ¬ (∀ u ∈ exDocOtherDatatype.tu,
        u.hashKey ∈
          (exDocOtherDatatype.deserialize exDocOtherDatatype.serialize).1.tu.map
            TranslationUnit.hashKey) := by
  decide

lemma getD_append_length {α : Type} (l : List α) (u x : α) :
    (l ++ [u]).getD l.length x = u := by
  induction l with
  | nil => rfl
  | cons a l ih => exact ih

lemma readUnit_append {st ext : Heap.Store} {i : Nat} (h : i < st.length) :
    Heap.readUnit (st ++ ext) i = Heap.readUnit st i := by
  unfold Heap.readUnit
  rw [List.getD_append _ _ _ _ h]

lemma readUnit_append_length (l : Heap.Store) (u : TranslationUnit) :
    Heap.readUnit (l ++ [u]) l.length = u :=
  getD_append_length l u _

lemma haddTranslationUnit_of_none {st : Heap.Store} {d : Heap.HTMX} {i : Nat}
    (h : assocLookup d.tuhash (Heap.readUnit st i).hashKey = none) :
    Heap.addTranslationUnit st d i =
      (st,
        { d with
          tu := d.tu ++ [i],
          tuhash := d.tuhash ++ [((Heap.readUnit st i).hashKey, i)] }) := by
  unfold Heap.addTranslationUnit
  dsimp only
  rw [h]

lemma haddTranslationUnits_fresh (st : Heap.Store) (L : List Nat) :
    ∀ A : Heap.HTMX,
      (∀ i ∈ L, assocLookup A.tuhash (Heap.readUnit st i).hashKey = none) →
      ((L.map (fun i => (Heap.readUnit st i).hashKey)).Nodup) →
      Heap.addTranslationUnits st A L =
        (st,
          { A with
            tu := A.tu ++ L,
            tuhash := A.tuhash ++ L.map (fun i => ((Heap.readUnit st i).hashKey, i)) }) := by
  induction L with
  | nil =>
    intro A _ _
    simp [Heap.addTranslationUnits]
  | cons i L ih =>
    intro A hF hN
    rw [List.map_cons] at hN
    obtain ⟨hnotin, hN'⟩ := List.nodup_cons.mp hN
    unfold Heap.addTranslationUnits
    rw [List.foldl_cons]
    dsimp only
    rw [haddTranslationUnit_of_none (hF i (List.mem_cons_self _ _))]
    have hF' : ∀ w ∈ L, assocLookup
        ({ A with
           tu := A.tu ++ [i],
           tuhash := A.tuhash ++ [((Heap.readUnit st i).hashKey, i)] } : Heap.HTMX).tuhash
        (Heap.readUnit st w).hashKey = none := by
      intro w hw
      have hne : ¬ (Heap.readUnit st i).hashKey = (Heap.readUnit st w).hashKey :=
        fun he => hnotin (he ▸ List.mem_map_of_mem _ hw)
      dsimp only
      rw [assocLookup_append_none _ (hF w (List.mem_cons_of_mem _ hw)),
        assocLookup_cons, if_neg hne]
      rfl
    have ih' := ih _ hF' hN'
    unfold Heap.addTranslationUnits at ih'
    rw [ih']
    simp

lemma merge_inner_fold (st : Heap.Store) (L : List Nat) :
    ∀ A : Heap.HTMX,
      (∀ i ∈ L, assocLookup A.tuhash (Heap.readUnit st i).hashKey = none) →
      ((L.map (fun i => (Heap.readUnit st i).hashKey)).Nodup) →
      L.foldl (fun acc2 i =>
          let tu := Heap.readUnit acc2.1 i
          match assocLookup acc2.2.tuhash tu.hashKey with
          | some j => (Heap.mergeVariants acc2.1 j i, acc2.2)
          | none => Heap.addTranslationUnit acc2.1 acc2.2 i) (st, A) =
        (st,
          { A with
            tu := A.tu ++ L,
            tuhash := A.tuhash ++ L.map (fun i => ((Heap.readUnit st i).hashKey, i)) }) := by
  induction L with
  | nil =>
    intro A _ _
    simp
  | cons i L ih =>
    intro A hF hN
    rw [List.map_cons] at hN
    obtain ⟨hnotin, hN'⟩ := List.nodup_cons.mp hN
    rw [List.foldl_cons]
    dsimp only
    rw [hF i (List.mem_cons_self _ _)]
    dsimp only
    rw [haddTranslationUnit_of_none (hF i (List.mem_cons_self _ _))]
    have hF' : ∀ w ∈ L, assocLookup
        ({ A with
           tu := A.tu ++ [i],
           tuhash := A.tuhash ++ [((Heap.readUnit st i).hashKey, i)] } : Heap.HTMX).tuhash
        (Heap.readUnit st w).hashKey = none := by
      intro w hw
      have hne : ¬ (Heap.readUnit st i).hashKey = (Heap.readUnit st w).hashKey :=
        fun he => hnotin (he ▸ List.mem_map_of_mem _ hw)
      dsimp only
      rw [assocLookup_append_none _ (hF w (List.mem_cons_of_mem _ hw)),
        assocLookup_cons, if_neg hne]
      rfl
    rw [ih _ hF' hN']
    simp

lemma merge_outer_fold (st : Heap.Store) (ts : List Heap.HTMX) :
    ∀ D : Heap.HTMX,
      ((((ts.map Heap.HTMX.tu).flatten).map (fun i => (Heap.readUnit st i).hashKey)).Nodup) →
      (∀ i ∈ (ts.map Heap.HTMX.tu).flatten,
        assocLookup D.tuhash (Heap.readUnit st i).hashKey = none) →
      (ts.foldl (fun acc tmx =>
        tmx.tu.foldl (fun acc2 i =>
          let tu := Heap.readUnit acc2.1 i
          match assocLookup acc2.2.tuhash tu.hashKey with
          | some j => (Heap.mergeVariants acc2.1 j i, acc2.2)
          | none => Heap.addTranslationUnit acc2.1 acc2.2 i) acc) (st, D)).1 = st := by
  induction ts with
  | nil =>
    intro D _ _
    rfl
  | cons t ts ih =>
    intro D hN hF
    rw [List.map_cons, List.flatten_cons, List.map_append] at hN
    obtain ⟨hN1, hN2, hdisj⟩ := List.nodup_append.mp hN
    rw [List.foldl_cons]
    dsimp only
    rw [merge_inner_fold st t.tu D
      (fun i hi => hF i (by
        rw [List.map_cons, List.flatten_cons]
        exact List.mem_append_left _ hi)) hN1]
    refine ih _ hN2 ?_
    intro i hi
    dsimp only
    rw [assocLookup_append_none _ (hF i (by
      rw [List.map_cons, List.flatten_cons]
      exact List.mem_append_right _ hi))]
    rw [assocLookup_eq_none_iff]
    intro p hp hkp
    obtain ⟨w, hw, hwp⟩ := List.mem_map.mp hp
    have hp1 : p.1 = (Heap.readUnit st w).hashKey := by rw [← hwp]
    have hmem : (Heap.readUnit st i).hashKey ∈
        t.tu.map (fun i => (Heap.readUnit st i).hashKey) := by
      rw [← hkp, hp1]
      exact List.mem_map_of_mem _ hw
    exact hdisj hmem (List.mem_map_of_mem _ hi)

lemma hdiff_fold (st : Heap.Store) (d : Heap.HTMX) (L : List Nat) :
    ∀ (st0 : Heap.Store) (A : Heap.HTMX) (ext : Heap.Store),
      st0 = st ++ ext →
      (∀ i ∈ L, i < st.length) →
      ((L.map (fun i => (Heap.readUnit st i).hashKey)).Nodup) →
      (∀ i ∈ L, assocLookup A.tuhash (Heap.readUnit st i).hashKey = none) →
      ∃ ext2, (L.foldl (fun acc i =>
        let tu := Heap.readUnit acc.1 i
        match assocLookup d.tuhash tu.hashKey with
        | some j =>
          let variantdiff := TMX.variantDiff (Heap.readUnit acc.1 j) tu
          if variantdiff.isEmpty then acc
          else
            let newTu := diffUnit tu variantdiff
            Heap.addTranslationUnit (acc.1 ++ [newTu]) acc.2 acc.1.length
        | none => Heap.addTranslationUnit acc.1 acc.2 i) (st0, A)).1 = st ++ ext2 := by
  induction L with
  | nil =>
    intro st0 A ext hst0 _ _ _
    exact ⟨ext, hst0⟩
  | cons i L ih =>
    intro st0 A ext hst0 hlt hN hF
    subst hst0
    rw [List.map_cons] at hN
    obtain ⟨hnotin, hN'⟩ := List.nodup_cons.mp hN
    rw [List.foldl_cons]
    dsimp only
    rw [readUnit_append (hlt i (List.mem_cons_self _ _))]
    rcases hj : assocLookup d.tuhash (Heap.readUnit st i).hashKey with _ | j
    · dsimp only
      have hfr : assocLookup A.tuhash
          (Heap.readUnit (st ++ ext) i).hashKey = none := by
        rw [readUnit_append (hlt i (List.mem_cons_self _ _))]
        exact hF i (List.mem_cons_self _ _)
      rw [haddTranslationUnit_of_none hfr]
      refine ih _ _ ext rfl (fun w hw => hlt w (List.mem_cons_of_mem _ hw)) hN' ?_
      intro w hw
      dsimp only
      have hne : ¬ (Heap.readUnit (st ++ ext) i).hashKey =
          (Heap.readUnit st w).hashKey := by
        rw [readUnit_append (hlt i (List.mem_cons_self _ _))]
        exact fun he => hnotin (he ▸ List.mem_map_of_mem _ hw)
      rw [assocLookup_append_none _ (hF w (List.mem_cons_of_mem _ hw)),
        assocLookup_cons, if_neg hne]
      rfl
    · dsimp only
      by_cases hemp : (TMX.variantDiff (Heap.readUnit (st ++ ext) j)
          (Heap.readUnit st i)).isEmpty
      · rw [if_pos hemp]
        exact ih _ _ ext rfl (fun w hw => hlt w (List.mem_cons_of_mem _ hw)) hN'
          (fun w hw => hF w (List.mem_cons_of_mem _ hw))
      · rw [if_neg hemp]
        have hfr : assocLookup A.tuhash
            (Heap.readUnit ((st ++ ext) ++ [diffUnit (Heap.readUnit st i)
              (TMX.variantDiff (Heap.readUnit (st ++ ext) j) (Heap.readUnit st i))])
              (st ++ ext).length).hashKey = none := by
          rw [readUnit_append_length, hashKey_diffUnit]
          exact hF i (List.mem_cons_self _ _)
        rw [haddTranslationUnit_of_none hfr]
        refine ih _ _ _ (List.append_assoc _ _ _)
          (fun w hw => hlt w (List.mem_cons_of_mem _ hw)) hN' ?_
        intro w hw
        dsimp only
        have hne : ¬ (Heap.readUnit st i).hashKey = (Heap.readUnit st w).hashKey :=
          fun he => hnotin (he ▸ List.mem_map_of_mem _ hw)
        rw [assocLookup_append_none _ (hF w (List.mem_cons_of_mem _ hw)),
          assocLookup_cons, readUnit_append_length, hashKey_diffUnit, if_neg hne]
        rfl

lemma hashKey_addProperties (u : TranslationUnit) (ps : List (String × Option String)) :
    (u.addProperties ps).hashKey = u.hashKey := by
  unfold TranslationUnit.hashKey
  rw [(addProperties_fields u ps).1, (addProperties_fields u ps).2.1,
    (addProperties_fields u ps).2.2.1]

lemma hashKey_pluralUnit (res : Resource) (aT : Bool)
    (tp : Option (List (String × List String))) (cat : String) (i : Nat) (s : String) :
    (pluralUnit res aT tp cat i s).hashKey =
      (res.sourceLocale, some s, res.datatype) := by
  unfold pluralUnit
  dsimp only
  rw [hashKey_addProperties]
  rcases tp with _ | tps
  · rw [hashKey_addVariant]
    rfl
  · dsimp only
    by_cases haT : aT = true
    · rw [if_pos haT]
      rcases assocLookup tps cat with _ | tsegs
      · rw [hashKey_addVariant]
        rfl
      · rw [hashKey_addVariant, hashKey_addVariant]
        rfl
    · rw [if_neg haT, hashKey_addVariant]
      rfl

lemma pluralMainStep_fresh {res : Resource} {aT : Bool}
    {tp : Option (List (String × List String))} {cat : String}
    {A : TMX} {oth : List (Option UnitKey)} {p : Nat × String}
    (h : assocLookup A.tuhash (pluralUnit res aT tp cat p.1 p.2).hashKey = none) :
    pluralMainStep res aT tp cat (A, oth) p =
      ({ A with
         tu := A.tu ++ [pluralUnit res aT tp cat p.1 p.2],
         tuhash := A.tuhash ++
           [((pluralUnit res aT tp cat p.1 p.2).hashKey,
             pluralUnit res aT tp cat p.1 p.2)] },
       if cat = "other" then
         oth ++ [some (pluralUnit res aT tp cat p.1 p.2).hashKey] else oth) := by
  unfold pluralMainStep
  dsimp only
  rw [h, addTranslationUnit_of_lookup_none h]
  simp

lemma pluralMain_inner (res : Resource) (aT : Bool)
    (tp : Option (List (String × List String))) (cat : String)
    (ps : List (Nat × String)) :
    ∀ (A : TMX) (oth : List (Option UnitKey)),
      (∀ p ∈ ps, assocLookup A.tuhash
        (pluralUnit res aT tp cat p.1 p.2).hashKey = none) →
      ((ps.map (fun p => (pluralUnit res aT tp cat p.1 p.2).hashKey)).Nodup) →
      ps.foldl (pluralMainStep res aT tp cat) (A, oth) =
        ({ A with
           tu := A.tu ++ ps.map (fun p => pluralUnit res aT tp cat p.1 p.2),
           tuhash := A.tuhash ++ ps.map (fun p =>
             ((pluralUnit res aT tp cat p.1 p.2).hashKey,
               pluralUnit res aT tp cat p.1 p.2)) },
         oth ++ (if cat = "other" then
           ps.map (fun p => some (pluralUnit res aT tp cat p.1 p.2).hashKey)
         else [])) := by
  induction ps with
  | nil =>
    intro A oth _ _
    simp
  | cons p ps ih =>
    intro A oth hF hN
    rw [List.map_cons] at hN
    obtain ⟨hnotin, hN'⟩ := List.nodup_cons.mp hN
    rw [List.foldl_cons, pluralMainStep_fresh (hF p (List.mem_cons_self _ _))]
    have hF' : ∀ w ∈ ps, assocLookup
        ({ A with
           tu := A.tu ++ [pluralUnit res aT tp cat p.1 p.2],
           tuhash := A.tuhash ++
             [((pluralUnit res aT tp cat p.1 p.2).hashKey,
               pluralUnit res aT tp cat p.1 p.2)] } : TMX).tuhash
        (pluralUnit res aT tp cat w.1 w.2).hashKey = none := by
      intro w hw
      have hne : ¬ (pluralUnit res aT tp cat p.1 p.2).hashKey =
          (pluralUnit res aT tp cat w.1 w.2).hashKey :=
        fun he => hnotin (he ▸ List.mem_map_of_mem _ hw)
      dsimp only
      rw [assocLookup_append_none _ (hF w (List.mem_cons_of_mem _ hw)),
        assocLookup_cons, if_neg hne]
      rfl
    rw [ih _ _ hF' hN']
    by_cases hcat : cat = "other" <;> simp [hcat]

lemma pluralMain_outer (res : Resource) (aT : Bool)
    (tp : Option (List (String × List String)))
    (cats : List (String × List String)) :
    ∀ (A : TMX) (oth : List (Option UnitKey)),
      (∀ cat ∈ cats, ∀ p ∈ cat.2.enum, assocLookup A.tuhash
        (pluralUnit res aT tp cat.1 p.1 p.2).hashKey = none) →
      (((cats.map (fun cat => cat.2.enum.map
        (fun p => (pluralUnit res aT tp cat.1 p.1 p.2).hashKey))).flatten).Nodup) →
      cats.foldl (fun acc cat =>
        (cat.2.enum).foldl (pluralMainStep res aT tp cat.1) acc) (A, oth) =
        ({ A with
           tu := A.tu ++ (cats.map (fun cat => cat.2.enum.map
             (fun p => pluralUnit res aT tp cat.1 p.1 p.2))).flatten,
           tuhash := A.tuhash ++ (cats.map (fun cat => cat.2.enum.map
             (fun p => ((pluralUnit res aT tp cat.1 p.1 p.2).hashKey,
               pluralUnit res aT tp cat.1 p.1 p.2)))).flatten },
         oth ++ (cats.map (fun cat => if cat.1 = "other" then
           cat.2.enum.map (fun p =>
             some (pluralUnit res aT tp cat.1 p.1 p.2).hashKey)
         else [])).flatten) := by
  induction cats with
  | nil =>
    intro A oth _ _
    simp
  | cons c cats ih =>
    intro A oth hF hN
    rw [List.map_cons, List.flatten_cons] at hN
    obtain ⟨hN1, hN2, hdisj⟩ := List.nodup_append.mp hN
    rw [List.foldl_cons]
    rw [pluralMain_inner res aT tp c.1 c.2.enum A oth
      (hF c (List.mem_cons_self _ _)) hN1]
    have hF' : ∀ cat ∈ cats, ∀ p ∈ cat.2.enum, assocLookup
        ({ A with
           tu := A.tu ++ c.2.enum.map (fun p => pluralUnit res aT tp c.1 p.1 p.2),
           tuhash := A.tuhash ++ c.2.enum.map (fun p =>
             ((pluralUnit res aT tp c.1 p.1 p.2).hashKey,
               pluralUnit res aT tp c.1 p.1 p.2)) } : TMX).tuhash
        (pluralUnit res aT tp cat.1 p.1 p.2).hashKey = none := by
      intro cat hcat p hp
      dsimp only
      rw [assocLookup_append_none _ (hF cat (List.mem_cons_of_mem _ hcat) p hp)]
      rw [assocLookup_eq_none_iff]
      intro q hq hkq
      obtain ⟨w, hw, hwq⟩ := List.mem_map.mp hq
      have hq1 : q.1 = (pluralUnit res aT tp c.1 w.1 w.2).hashKey := by rw [← hwq]
      have hmem1 : (pluralUnit res aT tp cat.1 p.1 p.2).hashKey ∈
          c.2.enum.map (fun p => (pluralUnit res aT tp c.1 p.1 p.2).hashKey) := by
        rw [← hkq, hq1]
        exact List.mem_map_of_mem _ hw
      have hmem2 : (pluralUnit res aT tp cat.1 p.1 p.2).hashKey ∈
          (cats.map (fun cat => cat.2.enum.map
            (fun p => (pluralUnit res aT tp cat.1 p.1 p.2).hashKey))).flatten := by
        rw [List.mem_flatten]
        exact ⟨_, List.mem_map_of_mem _ hcat, List.mem_map_of_mem _ hp⟩
      exact hdisj hmem1 hmem2
    rw [ih _ _ hF' hN2]
    simp [List.append_assoc]

lemma flatten_if_other {γ : Type} (F : List String → List γ) (o : List String) :
    ∀ cats : List (String × List String),
      ((cats.map Prod.fst).Nodup) → ("other", o) ∈ cats →
      (cats.map (fun cat => if cat.1 = "other" then F cat.2 else [])).flatten = F o := by
  intro cats
  induction cats with
  | nil =>
    intro _ hmem
    cases hmem
  | cons c cats ih =>
    intro hN hmem
    rw [List.map_cons] at hN
    obtain ⟨hnotin, hN'⟩ := List.nodup_cons.mp hN
    rw [List.map_cons, List.flatten_cons]
    rcases List.mem_cons.mp hmem with hc | hc
    · subst hc
      rw [if_pos rfl]
      have hrest : (cats.map (fun cat =>
          if cat.1 = "other" then F cat.2 else [])).flatten = [] := by
        rw [List.flatten_eq_nil_iff]
        intro x hx
        obtain ⟨cat, hcat, hcx⟩ := List.mem_map.mp hx
        have hco : ¬ cat.1 = "other" := by
          intro he
          exact hnotin (List.mem_map.mpr ⟨cat, hcat, he⟩)
        rw [← hcx, if_neg hco]
      rw [hrest, List.append_nil]
    · have hco : ¬ c.1 = "other" := by
        intro he
        apply hnotin
        rw [he]
        exact List.mem_map_of_mem Prod.fst hc
      rw [if_neg hco, List.nil_append]
      exact ih hN' hc

lemma assocLookup_none_keys {α β β2 : Type} [DecidableEq α]
    {l1 : List (α × β)} {l2 : List (α × β2)}
    (h : l1.map Prod.fst = l2.map Prod.fst) (k : α) :
    assocLookup l1 k = none ↔ assocLookup l2 k = none := by
  rw [assocLookup_eq_none_iff, assocLookup_eq_none_iff]
  constructor
  · intro h1 p hp
    have hm : p.1 ∈ l2.map Prod.fst := List.mem_map_of_mem _ hp
    rw [← h] at hm
    obtain ⟨q, hq, hqp⟩ := List.mem_map.mp hm
    rw [← hqp]
    exact h1 q hq
  · intro h2 p hp
    have hm : p.1 ∈ l1.map Prod.fst := List.mem_map_of_mem _ hp
    rw [h] at hm
    obtain ⟨q, hq, hqp⟩ := List.mem_map.mp hm
    rw [← hqp]
    exact h2 q hq

lemma pluralExtraStep_facts (res : Resource) (other : List (Option UnitKey))
    (acc : TMX × Bool) (seg : Nat × String)
    (hA : Agree acc.1) (hflag : acc.2 = false)
    (hin : ∃ k, other.get? seg.1 = some (some k) ∧
      ¬ assocLookup acc.1.tuhash k = none) :
    Agree (pluralExtraStep res other acc seg).1 ∧
    (pluralExtraStep res other acc seg).2 = false ∧
    (pluralExtraStep res other acc seg).1.tu.map TranslationUnit.hashKey =
      acc.1.tu.map TranslationUnit.hashKey ∧
    (pluralExtraStep res other acc seg).1.tuhash.map Prod.fst =
      acc.1.tuhash.map Prod.fst ∧
    (∀ k kv, (∃ u, assocLookup acc.1.tuhash k = some u ∧ kv ∈ u.variantKeys) →
      ∃ u, assocLookup (pluralExtraStep res other acc seg).1.tuhash k = some u ∧
        kv ∈ u.variantKeys) ∧
    (∀ k, other.get? seg.1 = some (some k) →
      ∃ u, assocLookup (pluralExtraStep res other acc seg).1.tuhash k = some u ∧
        (res.targetLocale.getD "", some seg.2) ∈ u.variantKeys) := by
  obtain ⟨k0, hk0, hl0⟩ := hin
  rcases hlook : assocLookup acc.1.tuhash k0 with _ | u0
  · exact absurd hlook hl0
  have hku : k0 = u0.hashKey := (hA.2 _ (assocLookup_some_mem hlook)).2
  have hstep : pluralExtraStep res other acc seg =
      (acc.1.updateUnit k0 (u0.addVariant
        { locale := res.targetLocale.getD "", string := some seg.2 }), false) := by
    unfold pluralExtraStep
    rw [hflag, if_neg Bool.false_ne_true, hk0]
    dsimp only
    rw [hlook]
  rw [hstep]
  refine ⟨?_, rfl, ?_, ?_, ?_, ?_⟩
  · exact agree_updateUnit hA hlook (by rw [hashKey_addVariant, hku])
  · rw [updateUnit_tu, List.map_map]
    refine List.map_congr_left ?_
    intro t _
    dsimp only [Function.comp]
    by_cases hteq : t.hashKey = k0
    · rw [if_pos hteq, hashKey_addVariant, ← hku, ← hteq]
    · rw [if_neg hteq]
  · rw [updateUnit_tuhash, List.map_map]
    refine List.map_congr_left ?_
    intro q _
    dsimp only [Function.comp]
    by_cases hqeq : q.1 = k0
    · rw [if_pos hqeq, hqeq]
    · rw [if_neg hqeq]
  · intro k kv hex
    obtain ⟨u, hu, hkv⟩ := hex
    by_cases hk : k = k0
    · subst hk
      refine ⟨u0.addVariant
        { locale := res.targetLocale.getD "", string := some seg.2 }, ?_, ?_⟩
      · rw [updateUnit_tuhash, assocLookup_map_ite, hlook]
        rfl
      · have hu0 : u = u0 := Option.some.inj (hu.symm.trans hlook)
        exact variantKeys_mono_addVariant u0 _ (hu0 ▸ hkv)
    · exact ⟨u, by rw [updateUnit_tuhash, assocLookup_map_ite_ne _ _ hk]; exact hu, hkv⟩
  · intro k hk
    have hkk0 : k = k0 :=
      Option.some.inj (Option.some.inj (hk.symm.trans hk0))
    subst hkk0
    refine ⟨u0.addVariant
      { locale := res.targetLocale.getD "", string := some seg.2 }, ?_, ?_⟩
    · rw [updateUnit_tuhash, assocLookup_map_ite, hlook]
      rfl
    · exact mem_variantKeys_addVariant u0 _

lemma get?_map_enumFrom {α γ : Type} [Inhabited α] (f : Nat × α → γ) (l : List α) :
    ∀ n i, i < l.length →
      ((l.enumFrom n).map f).get? i = some (f (n + i, l.getD i default)) := by
  induction l with
  | nil =>
    intro n i h
    exact absurd h (Nat.not_lt_zero i)
  | cons a l ih =>
    intro n i h
    cases i with
    | zero => simp
    | succ i =>
      show ((l.enumFrom (n + 1)).map f).get? i = some (f (n + (i + 1), l.getD i default))
      rw [ih (n + 1) i (Nat.lt_of_succ_lt_succ h)]
      have harith : n + 1 + i = n + (i + 1) := by omega
      rw [harith]

lemma get?_map_enum {α γ : Type} [Inhabited α] (f : Nat × α → γ) (l : List α)
    (i : Nat) (h : i < l.length) :
    ((l.enum).map f).get? i = some (f (i, l.getD i default)) := by
  have := get?_map_enumFrom f l 0 i h
  rw [Nat.zero_add] at this
  exact this

lemma fst_lt_of_mem_enumFrom {α : Type} (l : List α) :
    ∀ n (p : Nat × α), p ∈ l.enumFrom n → p.1 < n + l.length := by
  induction l with
  | nil =>
    intro n p h
    cases h
  | cons a l ih =>
    intro n p h
    rcases List.mem_cons.mp h with h | h
    · subst h
      show n < n + (l.length + 1)
      omega
    · have := ih (n + 1) p h
      show p.1 < n + (l.length + 1)
      omega

lemma fst_lt_of_mem_enum {α : Type} {l : List α} {p : Nat × α} (h : p ∈ l.enum) :
    p.1 < l.length := by
  have := fst_lt_of_mem_enumFrom l 0 p h
  omega

lemma pluralExtra_inner (res : Resource) (other : List (Option UnitKey))
    (ps : List (Nat × String)) :
    ∀ acc : TMX × Bool,
      Agree acc.1 → acc.2 = false →
      (∀ p ∈ ps, ∃ k, other.get? p.1 = some (some k) ∧
        ¬ assocLookup acc.1.tuhash k = none) →
      Agree (ps.foldl (pluralExtraStep res other) acc).1 ∧
      (ps.foldl (pluralExtraStep res other) acc).2 = false ∧
      (ps.foldl (pluralExtraStep res other) acc).1.tu.map TranslationUnit.hashKey =
        acc.1.tu.map TranslationUnit.hashKey ∧
      (ps.foldl (pluralExtraStep res other) acc).1.tuhash.map Prod.fst =
        acc.1.tuhash.map Prod.fst ∧
      (∀ k kv, (∃ u, assocLookup acc.1.tuhash k = some u ∧ kv ∈ u.variantKeys) →
        ∃ u, assocLookup (ps.foldl (pluralExtraStep res other) acc).1.tuhash k =
          some u ∧ kv ∈ u.variantKeys) ∧
      (∀ p ∈ ps, ∀ k, other.get? p.1 = some (some k) →
        ∃ u, assocLookup (ps.foldl (pluralExtraStep res other) acc).1.tuhash k =
          some u ∧ (res.targetLocale.getD "", some p.2) ∈ u.variantKeys) := by
  induction ps with
  | nil =>
    intro acc hA hflag _
    exact ⟨hA, hflag, rfl, rfl, fun k kv h => h,
      fun p hp => absurd hp (List.not_mem_nil _)⟩
  | cons p ps ih =>
    intro acc hA hflag hin
    obtain ⟨hA1, hfl1, htu1, hth1, hmono1, hatt1⟩ :=
      pluralExtraStep_facts res other acc p hA hflag (hin p (List.mem_cons_self _ _))
    have hin2 : ∀ w ∈ ps, ∃ k, other.get? w.1 = some (some k) ∧
        ¬ assocLookup (pluralExtraStep res other acc p).1.tuhash k = none := by
      intro w hw
      obtain ⟨k, hk, hl⟩ := hin w (List.mem_cons_of_mem _ hw)
      refine ⟨k, hk, ?_⟩
      rw [assocLookup_none_keys hth1 k]
      exact hl
    obtain ⟨hA2, hfl2, htu2, hth2, hmono2, hatt2⟩ :=
      ih (pluralExtraStep res other acc p) hA1 hfl1 hin2
    rw [List.foldl_cons]
    refine ⟨hA2, hfl2, htu2.trans htu1, hth2.trans hth1, ?_, ?_⟩
    · intro k kv h
      exact hmono2 k kv (hmono1 k kv h)
    · intro w hw k hk
      rcases List.mem_cons.mp hw with hwp | hwp
      · subst hwp
        exact hmono2 k _ (hatt1 k hk)
      · exact hatt2 w hwp k hk

lemma pluralExtra_outer (res : Resource)
    (srcP : List (String × List String)) (other : List (Option UnitKey))
    (tps : List (String × List String)) :
    ∀ acc : TMX × Bool,
      Agree acc.1 → acc.2 = false →
      (∀ cat ∈ tps, assocLookup srcP cat.1 = none →
        ∀ p ∈ cat.2.enum, ∃ k, other.get? p.1 = some (some k) ∧
          ¬ assocLookup acc.1.tuhash k = none) →
      Agree (tps.foldl (fun (acc : TMX × Bool) cat =>
        if acc.2 then acc
        else if (assocLookup srcP cat.1).isSome then acc
        else (cat.2.enum).foldl (pluralExtraStep res other) acc) acc).1 ∧
      (tps.foldl (fun (acc : TMX × Bool) cat =>
        if acc.2 then acc
        else if (assocLookup srcP cat.1).isSome then acc
        else (cat.2.enum).foldl (pluralExtraStep res other) acc) acc).2 = false ∧
      (tps.foldl (fun (acc : TMX × Bool) cat =>
        if acc.2 then acc
        else if (assocLookup srcP cat.1).isSome then acc
        else (cat.2.enum).foldl (pluralExtraStep res other) acc) acc).1.tu.map
          TranslationUnit.hashKey = acc.1.tu.map TranslationUnit.hashKey ∧
      (tps.foldl (fun (acc : TMX × Bool) cat =>
        if acc.2 then acc
        else if (assocLookup srcP cat.1).isSome then acc
        else (cat.2.enum).foldl (pluralExtraStep res other) acc) acc).1.tuhash.map
          Prod.fst = acc.1.tuhash.map Prod.fst ∧
      (∀ k kv, (∃ u, assocLookup acc.1.tuhash k = some u ∧ kv ∈ u.variantKeys) →
        ∃ u, assocLookup (tps.foldl (fun (acc : TMX × Bool) cat =>
          if acc.2 then acc
          else if (assocLookup srcP cat.1).isSome then acc
          else (cat.2.enum).foldl (pluralExtraStep res other) acc) acc).1.tuhash k =
            some u ∧ kv ∈ u.variantKeys) ∧
      (∀ cat ∈ tps, assocLookup srcP cat.1 = none →
        ∀ p ∈ cat.2.enum, ∀ k, other.get? p.1 = some (some k) →
          ∃ u, assocLookup (tps.foldl (fun (acc : TMX × Bool) cat =>
            if acc.2 then acc
            else if (assocLookup srcP cat.1).isSome then acc
            else (cat.2.enum).foldl (pluralExtraStep res other) acc) acc).1.tuhash k =
              some u ∧ (res.targetLocale.getD "", some p.2) ∈ u.variantKeys) := by
  induction tps with
  | nil =>
    intro acc hA hflag _
    exact ⟨hA, hflag, rfl, rfl, fun k kv h => h,
      fun cat hcat => absurd hcat (List.not_mem_nil _)⟩
  | cons c tps ih =>
    intro acc hA hflag hin
    rw [List.foldl_cons]
    rw [hflag, if_neg Bool.false_ne_true]
    by_cases hsrc : (assocLookup srcP c.1).isSome
    · rw [if_pos hsrc]
      obtain ⟨hA2, hfl2, htu2, hth2, hmono2, hatt2⟩ :=
        ih acc hA hflag (fun cat hcat => hin cat (List.mem_cons_of_mem _ hcat))
      refine ⟨hA2, hfl2, htu2, hth2, hmono2, ?_⟩
      intro cat hcat hnone
      rcases List.mem_cons.mp hcat with hcc | hcc
      · subst hcc
        rw [hnone] at hsrc
        simp at hsrc
      · exact hatt2 cat hcc hnone
    · rw [if_neg hsrc]
      have hnone : assocLookup srcP c.1 = none :=
        Option.not_isSome_iff_eq_none.mp hsrc
      obtain ⟨hA1, hfl1, htu1, hth1, hmono1, hatt1⟩ :=
        pluralExtra_inner res other c.2.enum acc hA hflag
          (hin c (List.mem_cons_self _ _) hnone)
      have hin2 : ∀ cat ∈ tps, assocLookup srcP cat.1 = none →
          ∀ p ∈ cat.2.enum, ∃ k, other.get? p.1 = some (some k) ∧
            ¬ assocLookup ((c.2.enum).foldl (pluralExtraStep res other) acc).1.tuhash
              k = none := by
        intro cat hcat hcn p hp
        obtain ⟨k, hk, hl⟩ := hin cat (List.mem_cons_of_mem _ hcat) hcn p hp
        refine ⟨k, hk, ?_⟩
        rw [assocLookup_none_keys hth1 k]
        exact hl
      obtain ⟨hA2, hfl2, htu2, hth2, hmono2, hatt2⟩ :=
        ih ((c.2.enum).foldl (pluralExtraStep res other) acc) hA1 hfl1 hin2
      refine ⟨hA2, hfl2, htu2.trans htu1, hth2.trans hth1, ?_, ?_⟩
      · intro k kv h
        exact hmono2 k kv (hmono1 k kv h)
      · intro cat hcat hcn p hp k hk
        rcases List.mem_cons.mp hcat with hcc | hcc
        · subst hcc
          exact hmono2 k _ (hatt1 p hp k hk)
        · exact hatt2 cat hcc hcn p hp k hk

lemma get?_enum {α : Type} [Inhabited α] (l : List α) (i : Nat) (h : i < l.length) :
    l.enum.get? i = some (i, l.getD i default) := by
  have hx := get?_map_enum (fun p => p) l i h
  rw [List.map_id'] at hx
  exact hx

lemma mem_enum_of_lt {α : Type} [Inhabited α] {l : List α} {i : Nat}
    (h : i < l.length) : (i, l.getD i default) ∈ l.enum :=
  List.get?_mem (get?_enum l i h)

/-- C8 (amended): the plural-category fallback holds when the call can
actually perform it: the resource is a plural with a translated target
locale, the source mapping carries an `other` category, source category
names are distinct, the units to be built are fresh (their keys are
pairwise distinct and absent from the document), and every extra
target-only category has at most as many segments as `other`.  Then the
call does not throw, the unit keys appended are exactly those of the
source categories (no unit for any extra category), and each segment of
each extra category is attached as a target variant on the stored unit
built for the `other` category at the same segment index.  Without the
`other`-presence and length conditions the call throws a `TypeError`
part-way (see the counterexample). -/
theorem c8_plural_fallback_amended (d : TMX) (res : Resource)
    (source tps : List (String × String)) (tl : String) (osegs : List String)
    (hAd : Agree d)
    (hpay : res.payload = ResourcePayload.plural source (some tps))
    (hsl : res.sourceLocale = d.sourceLocale)
    (htl : res.targetLocale = some tl)
    (htlne : tl ≠ "")
    (htlsrc : tl ≠ d.sourceLocale)
    (hsrcN : ((source.map Prod.fst).Nodup))
    (hO : assocLookup (source.map (fun p => (p.1, d.segmentString p.2))) "other" =
      some osegs)
    (hKeyN : (((source.map (fun p => (p.1, d.segmentString p.2))).map (fun cat =>
      cat.2.enum.map (fun p =>
        ((res.sourceLocale, some p.2, res.datatype) : UnitKey)))).flatten).Nodup)
    (hFresh : ∀ cat ∈ source.map (fun p => (p.1, d.segmentString p.2)),
      ∀ p ∈ cat.2.enum, assocLookup d.tuhash
        ((res.sourceLocale, some p.2, res.datatype) : UnitKey) = none)
    (hLen : ∀ cat ∈ tps.map (fun p => (p.1, d.segmentString p.2)),
      assocLookup (source.map (fun p => (p.1, d.segmentString p.2))) cat.1 = none →
      cat.2.length ≤ osegs.length) :
    (d.addResource res).2 = false ∧
    (d.addResource res).1.tu.map TranslationUnit.hashKey =
      d.tu.map TranslationUnit.hashKey ++
        ((source.map (fun p => (p.1, d.segmentString p.2))).map (fun cat =>
          cat.2.enum.map (fun p =>
            ((res.sourceLocale, some p.2, res.datatype) : UnitKey)))).flatten ∧
    (∀ cat ∈ tps.map (fun p => (p.1, d.segmentString p.2)),
      assocLookup (source.map (fun p => (p.1, d.segmentString p.2))) cat.1 = none →
      ∀ p ∈ cat.2.enum, ∃ u,
        assocLookup (d.addResource res).1.tuhash
          ((res.sourceLocale, some (osegs.getD p.1 ""), res.datatype) : UnitKey) =
          some u ∧
        ((tl, some p.2) : String × Option String) ∈ u.variantKeys) := by
  have hF : ∀ cat ∈ source.map (fun p => (p.1, d.segmentString p.2)),
      ∀ p ∈ cat.2.enum, assocLookup d.tuhash
        (pluralUnit res true
          (some (tps.map (fun p => (p.1, d.segmentString p.2)))) cat.1 p.1
          p.2).hashKey = none := by
    intro cat hcat p hp
    rw [hashKey_pluralUnit]
    exact hFresh cat hcat p hp
  have hN : (((source.map (fun p => (p.1, d.segmentString p.2))).map (fun cat =>
      cat.2.enum.map (fun p => (pluralUnit res true
        (some (tps.map (fun p => (p.1, d.segmentString p.2)))) cat.1 p.1
        p.2).hashKey))).flatten).Nodup := by
    simp only [hashKey_pluralUnit]
    exact hKeyN
  have hsrcN' : (((source.map (fun p => (p.1, d.segmentString p.2))).map
      Prod.fst).Nodup) := by
    rw [List.map_map]
    exact hsrcN
  have hOmem : (("other", osegs) : String × List String) ∈
      source.map (fun p => (p.1, d.segmentString p.2)) :=
    assocLookup_some_mem hO
  have hmainEq := pluralMain_outer res true
    (some (tps.map (fun p => (p.1, d.segmentString p.2))))
    (source.map (fun p => (p.1, d.segmentString p.2))) d [] hF hN
  have hAgreeMain : Agree (((source.map (fun p => (p.1, d.segmentString p.2))).foldl
      (fun acc cat => (cat.2.enum).foldl (pluralMainStep res true
        (some (tps.map (fun p => (p.1, d.segmentString p.2)))) cat.1) acc)
      (d, [])).1) :=
    agree_foldl_fst _ _
      (fun acc cat hacc => agree_foldl_fst _ _
        (fun acc2 seg hacc2 => agree_addTranslationUnit _ hacc2) acc hacc)
      (d, []) hAd
  rw [hmainEq] at hAgreeMain
  simp only [hashKey_pluralUnit] at hAgreeMain
  unfold TMX.addResource
  rw [if_neg (not_not_intro hsl)]
  dsimp only
  rw [hpay]
  dsimp only
  have htr : truthy res.targetLocale = some tl := by
    rw [htl]
    exact truthy_of_ne htlne
  rw [htr]
  dsimp only
  rw [decide_eq_true (show ¬ tl = d.sourceLocale from htlsrc)]
  unfold addResourcePlural
  dsimp only [Option.map]
  rw [hmainEq]
  dsimp only
  rw [if_pos rfl, List.nil_append]
  simp only [hashKey_pluralUnit]
  rw [flatten_if_other (fun l => l.enum.map (fun p =>
    some ((res.sourceLocale, some p.2, res.datatype) : UnitKey))) osegs _ hsrcN' hOmem]
  have hin : ∀ cat ∈ tps.map (fun p => (p.1, d.segmentString p.2)),
      assocLookup (source.map (fun p => (p.1, d.segmentString p.2))) cat.1 = none →
      ∀ p ∈ cat.2.enum, ∃ k,
        (osegs.enum.map (fun p => some ((res.sourceLocale, some p.2, res.datatype) :
          UnitKey))).get? p.1 = some (some k) ∧
        ¬ assocLookup ({ d with
          tu := d.tu ++ ((source.map (fun p => (p.1, d.segmentString p.2))).map
            (fun cat => cat.2.enum.map (fun p => pluralUnit res true
              (some (tps.map (fun p => (p.1, d.segmentString p.2)))) cat.1 p.1
              p.2))).flatten,
          tuhash := d.tuhash ++ ((source.map (fun p => (p.1, d.segmentString p.2))).map
            (fun cat => cat.2.enum.map (fun p =>
              (((res.sourceLocale, some p.2, res.datatype) : UnitKey),
                pluralUnit res true
                  (some (tps.map (fun p => (p.1, d.segmentString p.2)))) cat.1 p.1
                  p.2)))).flatten } : TMX).tuhash k = none := by
    intro cat hcat hnone p hp
    have hplen : p.1 < osegs.length :=
      Nat.lt_of_lt_of_le (fst_lt_of_mem_enum hp) (hLen cat hcat hnone)
    refine ⟨((res.sourceLocale, some (osegs.getD p.1 ""), res.datatype) : UnitKey),
      ?_, ?_⟩
    · exact get?_map_enum _ osegs p.1 hplen
    · intro hcontra
      rw [assocLookup_eq_none_iff] at hcontra
      refine hcontra (((res.sourceLocale, some (osegs.getD p.1 ""), res.datatype) :
          UnitKey),
        pluralUnit res true (some (tps.map (fun p => (p.1, d.segmentString p.2))))
          "other" p.1 (osegs.getD p.1 "")) ?_ rfl
      dsimp only
      refine List.mem_append_right _ ?_
      rw [List.mem_flatten]
      refine ⟨_, List.mem_map_of_mem _ hOmem, ?_⟩
      exact List.mem_map_of_mem _ (mem_enum_of_lt hplen)
  obtain ⟨hA2, hfl2, htu2, hth2, hmono2, hatt2⟩ :=
    pluralExtra_outer res (source.map (fun p => (p.1, d.segmentString p.2)))
      (osegs.enum.map (fun p =>
        some ((res.sourceLocale, some p.2, res.datatype) : UnitKey)))
      (tps.map (fun p => (p.1, d.segmentString p.2)))
      (_, false) hAgreeMain rfl hin
  refine ⟨hfl2, ?_, ?_⟩
  · rw [htu2]
    dsimp only
    rw [List.map_append, List.map_flatten, List.map_map]
    refine congrArg _ (congrArg List.flatten (List.map_congr_left ?_))
    intro p _
    dsimp only [Function.comp]
    rw [List.map_map]
    refine List.map_congr_left ?_
    intro q _
    dsimp only [Function.comp]
    exact hashKey_pluralUnit res true _ _ q.1 q.2
  · intro cat hcat hnone p hp
    have hplen : p.1 < osegs.length :=
      Nat.lt_of_lt_of_le (fst_lt_of_mem_enum hp) (hLen cat hcat hnone)
    obtain ⟨u, hu, hkv⟩ := hatt2 cat hcat hnone p hp
      ((res.sourceLocale, some (osegs.getD p.1 ""), res.datatype) : UnitKey)
      (get?_map_enum _ osegs p.1 hplen)
    refine ⟨u, hu, ?_⟩
    rw [htl] at hkv
    exact hkv

/-- C8 counterexample: for a plural resource whose target carries a
category (`few`) absent from the source while the source also lacks an
`other` category, the claimed attachment does not happen: the call
dereferences the missing `other` unit (`other[i].addVariant` on
`undefined`, a `TypeError` that aborts the call), and no unit of the
resulting document carries the extra category's segment at all. -/
theorem c8_plural_fallback_counterexample :
    (TMX.addResource {} exResourceNoOther).2 = true ∧
    ¬ (∃ u ∈ (TMX.addResource {} exResourceNoOther).1.tu,
        ∃ v ∈ u.variants, v.string = some "Q elements") := by
  decide

theorem c8_plural_fallback_amended_witness :
    (TMX.addResource {} exResourcePlural).2 = false ∧
    ∃ u, assocLookup (TMX.addResource {} exResourcePlural).1.tuhash
        ((("en" : String), (some "N items" : Option String),
          (none : Option String)) : UnitKey) = some u ∧
      ((("fr" : String), (some "Q elements" : Option String)) :
        String × Option String) ∈ u.variantKeys := by
  have h := c8_plural_fallback_amended {} exResourcePlural
    [("one", "1 item"), ("other", "N items")]
    [("one", "1 element"), ("few", "Q elements"), ("other", "N elements")]
    "fr" ["N items"] (by decide) rfl rfl rfl (by decide) (by decide) (by decide)
    (by decide) (by decide) (by decide) (by decide)
  refine ⟨h.1, ?_⟩
  obtain ⟨u, hu, hkv⟩ := h.2.2 ("few", TMX.segmentString {} "Q elements") (by decide)
    (by decide) (0, "Q elements") (by decide)
  exact ⟨u, hu, hkv⟩

/-- C2 counterexample: `merge` does not leave the receiver's units
unchanged.  In the heap model (unit objects shared by reference, as in
JavaScript), merging `exHeapDocB` into `exHeapDocA` mutates the
receiver's unit object in place: variant merging writes through the
shared reference, so after the call the receiver's unit has gained the
other document's variant. -/
theorem c2_frame_counterexample :
    exHeapDocA.tu = [0] ∧
    (Heap.readUnit (Heap.merge exHeapStore exHeapDocA [exHeapDocB]).1 0).variants ≠
      (Heap.readUnit exHeapStore 0).variants := by
  decide

/-- C2 (amended): the frame property that actually holds.  `diff` never
mutates a pre-existing unit object (its output units are either shared
by index or freshly allocated at the end of the store), provided the
other document's units live in the store and carry pairwise distinct
identity keys and the receiver's index points into the store.  `merge`
leaves the store — and hence every input document's units — untouched
exactly when no identity key occurs twice across the receiver and the
merged documents; on a key collision it mutates the first-seen unit
object in place (see the counterexample). -/
theorem c2_frame_amended (st : Heap.Store) (d other : Heap.HTMX)
    (tmxs : List Heap.HTMX)
    (hins : ∀ i ∈ other.tu, i < st.length)
    (hnd : ((other.tu.map (fun i => (Heap.readUnit st i).hashKey)).Nodup))
    (hnm : (((d.tu ++ (tmxs.map Heap.HTMX.tu).flatten).map
      (fun i => (Heap.readUnit st i).hashKey)).Nodup)) :
    (∀ i, i < st.length →
      Heap.readUnit (Heap.diff st d other).1 i = Heap.readUnit st i) ∧
    (Heap.merge st d tmxs).1 = st := by
  constructor
  · intro i hi
    unfold Heap.diff
    dsimp only
    obtain ⟨ext2, hext⟩ := hdiff_fold st d other.tu st
      (Heap.HTMX.init
        { sourceLocale := some d.sourceLocale,
          version := some d.version,
          segmentation := assocLookup d.properties "segtype",
          creationtool := assocLookup d.properties "creationtool",
          creationtoolversion := assocLookup d.properties "creationtoolversion" })
      [] (List.append_nil st).symm hins hnd (fun w _ => rfl)
    rw [hext, readUnit_append hi]
  · unfold Heap.merge
    by_cases he : tmxs.isEmpty
    · rw [if_pos he]
    · rw [if_neg he]
      dsimp only
      rw [List.map_append] at hnm
      obtain ⟨hn1, hn2, hdisj⟩ := List.nodup_append.mp hnm
      rw [haddTranslationUnits_fresh st d.tu
        (Heap.HTMX.init
          { sourceLocale := some d.sourceLocale,
            version := some d.version,
            segmentation := assocLookup d.properties "segtype",
            creationtool := assocLookup d.properties "creationtool",
            creationtoolversion := assocLookup d.properties "creationtoolversion" })
        (fun w _ => rfl) hn1]
      refine merge_outer_fold st tmxs _ hn2 ?_
      intro i hi
      dsimp only
      rw [assocLookup_eq_none_iff]
      intro p hp hkp
      obtain ⟨w, hw, hwp⟩ := List.mem_map.mp hp
      have hp1 : p.1 = (Heap.readUnit st w).hashKey := by rw [← hwp]
      have hmem : (Heap.readUnit st i).hashKey ∈
          d.tu.map (fun i => (Heap.readUnit st i).hashKey) := by
        rw [← hkp, hp1]
        exact List.mem_map_of_mem _ hw
      exact hdisj hmem (List.mem_map_of_mem _ hi)

theorem c2_frame_amended_witness :
    (Heap.merge exHeapStoreC exHeapDocA [exHeapDocC]).1 = exHeapStoreC ∧
    Heap.readUnit (Heap.diff exHeapStoreC exHeapDocA exHeapDocC).1 0 =
      Heap.readUnit exHeapStoreC 0 := by
  have h := c2_frame_amended exHeapStoreC exHeapDocA exHeapDocC [exHeapDocC]
    (by decide) (by decide) (by decide)
  exact ⟨h.2, h.1 0 (by decide)⟩

theorem c1_roundtrip_amended_witness :
    (exDocGood.deserialize exDocGood.serialize).1.tu.map
        (fun x => (x.hashKey, x.variantKeys)) =
      exDocGood.tu.map (fun u => (u.hashKey, u.variantKeys)) :=
  c1_roundtrip_amended exDocGood (by decide) (by decide) (by decide)

end Tmx
